import Mathlib

/-!
# Page replacement simulators of `montecarlo.c`

A shallow embedding of the three simulators `LRU`, `FIFO` and `Clock` of
`src/montecarlo.c`, followed by theorems about them.

Conventions of the embedding.

* A C array of `wss` ints is a `List Int`; `a[i]` is `readAt a i` and the
  store `a[i] = v` is `List.set`, which leaves the list unchanged when `i`
  is not an index of it.
* The trace `data` is a `List Int`; the C loops `for (j = 0; j < 1000; j++)`
  run over the whole `data` array, here over the whole list.
* In `LRU` the variable `pointer` is also the counter of the search loop, so
  it equals `wss` after a search and the next emptiness test reads
  `lru[wss]`, one word behind the table.  The value found there is not
  determined by the program: it is the parameter `past` of `LRUstep`
  (`past j` for the test made for `data[j]`).  When it is `-1` the store
  `lru[wss] = data[j]` goes to that same word and leaves the `wss` frames
  as they are.
* Page numbers and `-1` are `Int`, counters and indices are `Nat`; the
  counters stay below the trace length, far from the range of `int`.
* The simulators are modelled for `wss ≥ 1`.  At `wss = 0` the store
  branches of `LRU` and `FIFO` compute `(pointer + 1) % wss`, a division by
  zero in C, which the total `%` of the model does not represent; `Clock`
  makes no pass of its loops for any `wss` below 1.
-/

namespace MonteCarlo

/-! ## Arrays -/

/-- The read `a[i]` of a C array held in a list. -/
def readAt (a : List Int) (i : Nat) : Int := a.getD i 0

/-! ## LRU (lines 141-210) -/

/-- The variables of `LRU` that live across iterations of the trace loop.
`found` is false at the head of every iteration and is not kept here. -/
structure LRUState where
  lru : List Int
  temp : List Int
  pointer : Nat
  pageFault : Nat
  indexFound : Nat
deriving DecidableEq

/-- State at the head of the trace loop: every frame holds `-1`.  The C
array `temp` is not initialised; it is written before it is read. -/
def LRUinit (wss : Nat) : LRUState :=
  { lru := List.replicate wss (-1), temp := List.replicate wss 0,
    pointer := 0, pageFault := 0, indexFound := 0 }

/-- Lines 162-169: the search loop over all `wss` frames.  Returns the
final `found` and `indexFound`. -/
def LRUscan (wss : Nat) (lru : List Int) (d : Int) (indexFound : Nat) : Bool × Nat :=
  (List.range wss).foldl
    (fun acc q => if readAt lru q = d then (true, q) else acc) (false, indexFound)

/-- Lines 173-183: the contents of `temp` after the three statements of the
`found` branch. -/
def LRUmoveToBack (wss : Nat) (lru temp : List Int) (indexFound : Nat) : List Int :=
  let t1 := (List.range indexFound).foldl (fun t e => t.set e (readAt lru e)) temp
  let t2 := t1.set (wss - 1) (readAt lru indexFound)
  (List.range' indexFound (wss - 1 - indexFound)).foldl
    (fun t p => t.set p (readAt lru (p + 1))) t2

/-- Lines 192-197: the contents of `temp` in the branch without a match. -/
def LRUevict (wss : Nat) (lru temp : List Int) (d : Int) : List Int :=
  let t1 := (List.range (wss - 1)).foldl (fun t i => t.set i (readAt lru (i + 1))) temp
  t1.set (wss - 1) d

/-- Lines 185-188 and 199-202: copy `temp` back into `lru`. -/
def LRUcopyBack (wss : Nat) (lru temp : List Int) : List Int :=
  (List.range wss).foldl (fun l y => l.set y (readAt temp y)) lru

/-- The value the emptiness test `lru[pointer] == -1` of line 155 reads:
a frame when `pointer < wss`, the word behind the table otherwise. -/
def LRUprobe (wss : Nat) (past : Int) (s : LRUState) : Int :=
  if s.pointer < wss then readAt s.lru s.pointer else past

/-- Lines 155-206: the body of the trace loop of `LRU` for the reference `d`. -/
def LRUstep (wss : Nat) (past : Int) (s : LRUState) (d : Int) : LRUState :=
  if LRUprobe wss past s = -1 then
    { s with lru := s.lru.set s.pointer d, pointer := (s.pointer + 1) % wss }
  else
    let r := LRUscan wss s.lru d s.indexFound
    if r.1 then
      let t := LRUmoveToBack wss s.lru s.temp r.2
      { lru := LRUcopyBack wss s.lru t, temp := t, pointer := wss,
        pageFault := s.pageFault, indexFound := r.2 }
    else
      let t := LRUevict wss s.lru s.temp d
      { lru := LRUcopyBack wss s.lru t, temp := t, pointer := wss,
        pageFault := s.pageFault + 1, indexFound := r.2 }

/-- The trace loop of `LRU` from index `j` on. -/
def LRUloop (wss : Nat) (past : Nat → Int) : Nat → List Int → LRUState → LRUState
  | _, [], s => s
  | j, d :: ds, s => LRUloop wss past (j + 1) ds (LRUstep wss (past j) s d)

/-- The function `LRU`: the fault count after the whole trace. -/
def LRU (past : Nat → Int) (wss : Nat) (data : List Int) : Nat :=
  (LRUloop wss past 0 data (LRUinit wss)).pageFault

/-! ## FIFO (lines 225-252) -/

/-- The variables of `FIFO`. -/
structure FIFOState where
  fifoArray : List Int
  pointer : Nat
  pageFault : Nat
deriving DecidableEq

/-- State at the head of the trace loop of `FIFO`. -/
def FIFOinit (wss : Nat) : FIFOState :=
  { fifoArray := List.replicate wss (-1), pointer := 0, pageFault := 0 }

/-- Lines 237-248: the body of the trace loop of `FIFO`. -/
def FIFOstep (wss : Nat) (s : FIFOState) (d : Int) : FIFOState :=
  if readAt s.fifoArray s.pointer = -1 then
    { s with fifoArray := s.fifoArray.set s.pointer d, pointer := (s.pointer + 1) % wss }
  else if readAt s.fifoArray s.pointer ≠ d then
    { fifoArray := s.fifoArray.set s.pointer d, pointer := (s.pointer + 1) % wss,
      pageFault := s.pageFault + 1 }
  else s

/-- The state of `FIFO` after the references `data`. -/
def FIFOrun (wss : Nat) (data : List Int) : FIFOState :=
  data.foldl (FIFOstep wss) (FIFOinit wss)

/-- The function `FIFO`. -/
def FIFO (wss : Nat) (data : List Int) : Nat := (FIFOrun wss data).pageFault

/-! ## Clock (lines 266-310) -/

/-- The variables of `Clock`. -/
structure ClockState where
  clock : List Int
  useBit : List Int
  pointer : Nat
  pageFault : Nat
deriving DecidableEq

/-- State at the head of the trace loop of `Clock`. -/
def ClockInit (wss : Nat) : ClockState :=
  { clock := List.replicate wss (-1), useBit := List.replicate wss 0,
    pointer := 0, pageFault := 0 }

/-- Lines 281-305: one pass through the body of the inner loop, for the
slot under `pointer`.  The Boolean is true when the pass ends in `break`. -/
def ClockInspect (wss : Nat) (s : ClockState) (d : Int) : ClockState × Bool :=
  if readAt s.clock s.pointer = -1 then
    ({ s with clock := s.clock.set s.pointer d, useBit := s.useBit.set s.pointer 1,
              pointer := (s.pointer + 1) % wss }, true)
  else if readAt s.clock s.pointer = d then
    ({ s with useBit := s.useBit.set s.pointer 1 }, true)
  else if readAt s.useBit s.pointer = 1 then
    ({ s with useBit := s.useBit.set s.pointer 0, pointer := (s.pointer + 1) % wss }, false)
  else
    ({ clock := s.clock.set s.pointer d, useBit := s.useBit.set s.pointer 1,
       pointer := (s.pointer + 1) % wss, pageFault := s.pageFault + 1 }, true)

/-- Lines 279-306: the inner loop with `n` iterations left.  Returns the
state after the loop and the number of slots inspected. -/
def ClockScan (wss : Nat) (d : Int) : Nat → ClockState → ClockState × Nat
  | 0, s => (s, 0)
  | n + 1, s =>
    let r := ClockInspect wss s d
    if r.2 then (r.1, 1)
    else
      let r2 := ClockScan wss d n r.1
      (r2.1, r2.2 + 1)

/-- The body of the trace loop of `Clock`: the inner loop `for (c = 0; c < wss; c++)`. -/
def ClockStep (wss : Nat) (s : ClockState) (d : Int) : ClockState :=
  (ClockScan wss d wss s).1

/-- The state of `Clock` after the references `data`. -/
def ClockRun (wss : Nat) (data : List Int) : ClockState :=
  data.foldl (ClockStep wss) (ClockInit wss)

/-- The function `Clock`. -/
def Clock (wss : Nat) (data : List Int) : Nat := (ClockRun wss data).pageFault

/-! ## Auxiliary notions used in the statements and proofs -/

/-- A table of `LRU` in list form after a reference `d` made once every
frame is in use: a resident page is taken out of its last slot and put at
the back, otherwise the front entry is dropped and `d` is put at the back. -/
def lruNext (T : List Int) (d : Int) : List Int :=
  if d ∈ T then (T.reverse.erase d).reverse ++ [d] else T.tail ++ [d]

/-- Number of references of `ds` that are not found in the table, the table
starting as `T` and following `lruNext`. -/
def lruFaults : List Int → List Int → Nat
  | _, [] => 0
  | T, d :: ds => (if d ∈ T then 0 else 1) + lruFaults (lruNext T d) ds

/-- The table reached from `T` by `lruNext` over the references `ds`. -/
def lruTable : List Int → List Int → List Int
  | T, [] => T
  | T, d :: ds => lruTable (lruNext T d) ds

/-- The state of `LRU` while it fills the table: `pre` are the references
stored so far. -/
def LRUwarm (wss : Nat) (pre : List Int) : LRUState :=
  { lru := pre ++ List.replicate (wss - pre.length) (-1), temp := List.replicate wss 0,
    pointer := pre.length % wss, pageFault := 0, indexFound := 0 }

/-- The state of `LRU` at the head of the iteration for `data[j]`, that is
after the first `j` references. -/
def LRUafter (past : Nat → Int) (wss : Nat) (data : List Int) (j : Nat) : LRUState :=
  LRUloop wss past 0 (data.take j) (LRUinit wss)

/-- A word behind the table of `LRU` that reads 0 at every emptiness test. -/
def pastZero : Nat → Int := fun _ => 0

/-- No page occurs twice among any `n` consecutive references of `data`. -/
def NoRepeatWithin (n : Nat) (data : List Int) : Prop :=
  ∀ j, j < data.length → ∀ i, i < j → j < i + n → readAt data i ≠ readAt data j

instance (n : Nat) (data : List Int) : Decidable (NoRepeatWithin n data) := by
  unfold NoRepeatWithin
  infer_instance

/-- A state of `FIFO` with two frames in use and the cursor on the first. -/
def fifoExample : FIFOState := { fifoArray := [1, 2], pointer := 0, pageFault := 0 }

/-- A state of `Clock` with two frames in use, the cursor on the first,
whose use bit is set while that of the second is clear. -/
def clockExample : ClockState :=
  { clock := [1, 2], useBit := [1, 0], pointer := 0, pageFault := 0 }

/-- The state of `Clock` while it fills the table: `pre` are the references
stored so far, each with its use bit set. -/
def ClockWarm (wss : Nat) (pre : List Int) : ClockState :=
  { clock := pre ++ List.replicate (wss - pre.length) (-1),
    useBit := List.replicate pre.length 1 ++ List.replicate (wss - pre.length) 0,
    pointer := pre.length % wss, pageFault := 0 }

/-- Number of slots of a table that do not hold the sentinel `-1`. -/
def residents (t : List Int) : Nat := t.countP (fun x => x != -1)

/-- The state of `FIFO` while it fills the table: `pre` are the references
stored so far. -/
def FIFOwarm (wss : Nat) (pre : List Int) : FIFOState :=
  { fifoArray := pre ++ List.replicate (wss - pre.length) (-1),
    pointer := pre.length % wss, pageFault := 0 }

/-- Reference model, not taken from the source: one reference of a textbook
LRU cache of the given capacity, kept least recently used first.  A
resident page is moved to the back without a miss; a page that is not
resident is a miss and is appended, the front page being evicted when the
cache is full.  Returns the new cache and the number of misses (0 or 1). -/
def textbookLRUstep (capacity : Nat) (cache : List Int) (d : Int) : List Int × Nat :=
  if d ∈ cache then (cache.erase d ++ [d], 0)
  else if cache.length < capacity then (cache ++ [d], 1)
  else (cache.tail ++ [d], 1)

/-- Reference model: misses of the textbook LRU cache over the references
`ds`, starting from `cache`. -/
def textbookLRUmisses (capacity : Nat) : List Int → List Int → Nat
  | _, [] => 0
  | cache, d :: ds =>
    (textbookLRUstep capacity cache d).2 +
      textbookLRUmisses capacity (textbookLRUstep capacity cache d).1 ds

/-- Reference model: misses of a textbook LRU cache that starts empty. -/
def textbookLRU (capacity : Nat) (data : List Int) : Nat :=
  textbookLRUmisses capacity [] data

/-- A word behind the table of `LRU` that reads `-1` at every emptiness test. -/
def pastEmpty : Nat → Int := fun _ => -1

/-! ## The harness `main` (lines 44-85) -/

/-- The read `a[i]` of a C array of counters held in a list. -/
def readNat (a : List Nat) (i : Nat) : Nat := a.getD i 0

/-- The three result arrays of `main`, of 21 entries each.  Their entries
are sums of fault counts; they are kept as natural numbers and shown to stay
within the range of `int`. -/
structure Results where
  LRUResults : List Nat
  FIFOResults : List Nat
  ClockResults : List Nat
deriving DecidableEq

/-- Lines 51-56: every entry of the three arrays is 0. -/
def ResultsInit : Results :=
  { LRUResults := List.replicate 21 0, FIFOResults := List.replicate 21 0,
    ClockResults := List.replicate 21 0 }

/-- The values taken by `wss` in the loops `for (wss = 4; wss <= 20; wss++)`. -/
def wssValues : List Nat := List.range' 4 17

/-- Lines 71-73: the three calls made for one working-set size and the
trace `data`, `past` being the word read behind the table in `LRU`. -/
def accumulateStep (past : Nat → Nat → Int) (data : List Int) (r : Results) (wss : Nat) :
    Results :=
  { LRUResults := r.LRUResults.set wss (readNat r.LRUResults wss + LRU (past wss) wss data),
    FIFOResults := r.FIFOResults.set wss (readNat r.FIFOResults wss + FIFO wss data),
    ClockResults := r.ClockResults.set wss (readNat r.ClockResults wss + Clock wss data) }

/-- Lines 69-74: the loop over the working-set sizes for the trace `data` of
one trial. -/
def accumulate (past : Nat → Nat → Int) (data : List Int) (r : Results) : Results :=
  wssValues.foldl (accumulateStep past data) r

/-- Lines 58-75: the experiments loop from trial `i` on.  The list holds the
contents of `data` generated by lines 60-65 in the successive trials; the
random generator is not part of the model. -/
def experiments (past : Nat → Nat → Nat → Int) : Nat → List (List Int) → Results → Results
  | _, [], r => r
  | i, data :: rest, r => experiments past (i + 1) rest (accumulate (past i) data r)

/-- Lines 77-82: the numbers printed, one entry per working-set size: the
size and the three averages, in the order LRU, FIFO, Clock. -/
def report (r : Results) : List (Nat × Nat × Nat × Nat) :=
  wssValues.map (fun wss =>
    (wss, readNat r.LRUResults wss / 1000, readNat r.FIFOResults wss / 1000,
      readNat r.ClockResults wss / 1000))

/-- The function `main` on the traces of its trials. -/
def main (past : Nat → Nat → Nat → Int) (traces : List (List Int)) :
    List (Nat × Nat × Nat × Nat) :=
  report (experiments past 0 traces ResultsInit)

/-- One result array through the loop over the working-set sizes, `c wss`
being the count added to entry `wss`. -/
def accOne (c : Nat → Nat) (a : List Nat) : List Nat :=
  wssValues.foldl (fun l wss => l.set wss (readNat l wss + c wss)) a

/-- One result array through the experiments loop, `c i data wss` being the
count added to entry `wss` in trial `i`. -/
def expOne (c : Nat → List Int → Nat → Nat) : Nat → List (List Int) → List Nat → List Nat
  | _, [], a => a
  | i, data :: rest, a => expOne c (i + 1) rest (accOne (c i data) a)

/-- Sum over the trials, numbered from `i`, of the counts `c i data wss`. -/
def totalOf (c : Nat → List Int → Nat → Nat) (wss : Nat) : Nat → List (List Int) → Nat
  | _, [] => 0
  | i, data :: rest => c i data wss + totalOf c wss (i + 1) rest

theorem LRUstep_pageFault (wss : Nat) (past : Int) (s : LRUState) (d : Int) :
    s.pageFault ≤ (LRUstep wss past s d).pageFault ∧
      (LRUstep wss past s d).pageFault ≤ s.pageFault + 1 := by
  unfold LRUstep
  dsimp only
  split_ifs <;> simp

theorem LRUloop_pageFault (wss : Nat) (past : Nat → Int) (data : List Int) :
    ∀ (j : Nat) (s : LRUState),
      s.pageFault ≤ (LRUloop wss past j data s).pageFault ∧
        (LRUloop wss past j data s).pageFault ≤ s.pageFault + data.length := by
  induction data with
  | nil => intro j s; simp [LRUloop]
  | cons d ds ih =>
    intro j s
    have h1 := LRUstep_pageFault wss (past j) s d
    have h2 := ih (j + 1) (LRUstep wss (past j) s d)
    simp only [LRUloop, List.length_cons]
    omega

theorem FIFOstep_pageFault (wss : Nat) (s : FIFOState) (d : Int) :
    s.pageFault ≤ (FIFOstep wss s d).pageFault ∧
      (FIFOstep wss s d).pageFault ≤ s.pageFault + 1 := by
  unfold FIFOstep
  split_ifs <;> simp

theorem FIFOfold_pageFault (wss : Nat) (data : List Int) :
    ∀ s : FIFOState,
      s.pageFault ≤ (data.foldl (FIFOstep wss) s).pageFault ∧
        (data.foldl (FIFOstep wss) s).pageFault ≤ s.pageFault + data.length := by
  induction data with
  | nil => intro s; simp
  | cons d ds ih =>
    intro s
    have h1 := FIFOstep_pageFault wss s d
    have h2 := ih (FIFOstep wss s d)
    simp only [List.foldl_cons, List.length_cons]
    omega

theorem ClockInspect_pageFault (wss : Nat) (s : ClockState) (d : Int) :
    s.pageFault ≤ (ClockInspect wss s d).1.pageFault ∧
      (ClockInspect wss s d).1.pageFault ≤ s.pageFault + 1 ∧
      ((ClockInspect wss s d).2 = false → (ClockInspect wss s d).1.pageFault = s.pageFault) := by
  unfold ClockInspect
  split_ifs <;> simp

theorem ClockScan_pageFault (wss : Nat) (d : Int) :
    ∀ (n : Nat) (s : ClockState),
      s.pageFault ≤ (ClockScan wss d n s).1.pageFault ∧
        (ClockScan wss d n s).1.pageFault ≤ s.pageFault + 1 := by
  intro n
  induction n with
  | zero => intro s; simp [ClockScan]
  | succ n ih =>
    intro s
    have h1 := ClockInspect_pageFault wss s d
    have h2 := ih (ClockInspect wss s d).1
    simp only [ClockScan]
    split_ifs with hb
    · exact ⟨h1.1, h1.2.1⟩
    · have h3 := h1.2.2 (by simpa using hb)
      simp only
      omega

theorem ClockStep_pageFault (wss : Nat) (s : ClockState) (d : Int) :
    s.pageFault ≤ (ClockStep wss s d).pageFault ∧
      (ClockStep wss s d).pageFault ≤ s.pageFault + 1 :=
  ClockScan_pageFault wss d wss s

theorem ClockFold_pageFault (wss : Nat) (data : List Int) :
    ∀ s : ClockState,
      s.pageFault ≤ (data.foldl (ClockStep wss) s).pageFault ∧
        (data.foldl (ClockStep wss) s).pageFault ≤ s.pageFault + data.length := by
  induction data with
  | nil => intro s; simp
  | cons d ds ih =>
    intro s
    have h1 := ClockStep_pageFault wss s d
    have h2 := ih (ClockStep wss s d)
    simp only [List.foldl_cons, List.length_cons]
    omega

/-! ## Array loops of `LRU` -/

theorem readAt_eq (a : List Int) (i : Nat) (h : i < a.length) : a[i]? = some (readAt a i) := by
  simp [readAt, List.getD_eq_getElem?_getD, List.getElem?_eq_getElem h]

theorem foldl_set_range' (f : Nat → Int) :
    ∀ (k a : Nat) (t : List Int) (i : Nat),
      ((List.range' a k).foldl (fun t p => t.set p (f p)) t)[i]? =
        if a ≤ i ∧ i < a + k ∧ i < t.length then some (f i) else t[i]? := by
  intro k
  induction k with
  | zero =>
    intro a t i
    have : ¬ (a ≤ i ∧ i < a + 0 ∧ i < t.length) := by omega
    rw [if_neg this]
    rfl
  | succ k ih =>
    intro a t i
    rw [List.range'_succ, List.foldl_cons, ih]
    simp only [List.length_set, List.getElem?_set]
    by_cases h1 : a + 1 ≤ i ∧ i < a + 1 + k ∧ i < t.length
    · have h2 : a ≤ i ∧ i < a + (k + 1) ∧ i < t.length := by omega
      simp [h1, h2]
    · by_cases h3 : a = i
      · subst h3
        by_cases h4 : a < t.length
        · have h2 : a ≤ a ∧ a < a + (k + 1) ∧ a < t.length := by omega
          simp [h1, h2, h4]
        · have h2 : ¬ (a ≤ a ∧ a < a + (k + 1) ∧ a < t.length) := by omega
          simp [h1, h2, h4]
          omega
      · have h2 : ¬ (a ≤ i ∧ i < a + (k + 1) ∧ i < t.length) := by omega
        simp [h1, h2, h3]

theorem foldl_set_range'_length (f : Nat → Int) :
    ∀ (k a : Nat) (t : List Int),
      ((List.range' a k).foldl (fun t p => t.set p (f p)) t).length = t.length := by
  intro k
  induction k with
  | zero => intro a t; simp
  | succ k ih => intro a t; rw [List.range'_succ, List.foldl_cons, ih]; simp

theorem LRUcopyBack_eq (wss : Nat) (lru temp : List Int)
    (hl : lru.length = wss) (ht : temp.length = wss) : LRUcopyBack wss lru temp = temp := by
  apply List.ext_getElem?
  intro i
  unfold LRUcopyBack
  rw [List.range_eq_range', foldl_set_range' (fun y => readAt temp y)]
  by_cases h : i < wss
  · have : 0 ≤ i ∧ i < 0 + wss ∧ i < lru.length := by omega
    rw [if_pos this, readAt_eq temp i (by omega)]
  · have : ¬ (0 ≤ i ∧ i < 0 + wss ∧ i < lru.length) := by omega
    rw [if_neg this, List.getElem?_eq_none (by omega), List.getElem?_eq_none (by omega)]

theorem LRUevict_eq (wss : Nat) (lru temp : List Int) (d : Int)
    (hw : 1 ≤ wss) (hl : lru.length = wss) (ht : temp.length = wss) :
    LRUevict wss lru temp d = lru.tail ++ [d] := by
  apply List.ext_getElem?
  intro i
  unfold LRUevict
  simp only
  rw [List.range_eq_range', List.getElem?_set, foldl_set_range'_length,
    foldl_set_range' (fun i => readAt lru (i + 1)), List.getElem?_append, List.length_tail]
  by_cases h : i < wss - 1
  · have h1 : ¬ (wss - 1 = i) := by omega
    have h2 : 0 ≤ i ∧ i < 0 + (wss - 1) ∧ i < temp.length := by omega
    have h3 : i < lru.length - 1 := by omega
    rw [if_neg h1, if_pos h2, if_pos h3, ← readAt_eq lru (i + 1) (by omega),
      List.getElem?_tail]
  · by_cases h1 : wss - 1 = i
    · have h3 : ¬ (i < lru.length - 1) := by omega
      have h4 : wss - 1 < temp.length := by omega
      have h5 : i - (lru.length - 1) = 0 := by omega
      rw [if_pos h1, if_pos h4, if_neg h3, h5]
      simp
    · have h2 : ¬ (0 ≤ i ∧ i < 0 + (wss - 1) ∧ i < temp.length) := by omega
      have h3 : ¬ (i < lru.length - 1) := by omega
      rw [if_neg h1, if_neg h2, if_neg h3, List.getElem?_eq_none (by omega),
        List.getElem?_eq_none (by simp; omega)]

theorem LRUmoveToBack_eq (wss : Nat) (lru temp : List Int) (idx : Nat)
    (hi : idx < wss) (hl : lru.length = wss) (ht : temp.length = wss) :
    LRUmoveToBack wss lru temp idx = lru.eraseIdx idx ++ [readAt lru idx] := by
  apply List.ext_getElem?
  intro i
  unfold LRUmoveToBack
  simp only
  rw [foldl_set_range' (fun p => readAt lru (p + 1)), List.length_set, List.getElem?_set,
    List.range_eq_range', foldl_set_range'_length, foldl_set_range' (fun e => readAt lru e),
    List.getElem?_append, List.length_eraseIdx_of_lt (by omega), List.getElem?_eraseIdx]
  by_cases h : i < wss - 1
  · have h3 : i < lru.length - 1 := by omega
    have h1 : ¬ (wss - 1 = i) := by omega
    rw [if_pos h3, if_neg h1]
    by_cases h4 : i < idx
    · have h5 : ¬ (idx ≤ i ∧ i < idx + (wss - 1 - idx) ∧ i < temp.length) := by omega
      have h6 : 0 ≤ i ∧ i < 0 + idx ∧ i < temp.length := by omega
      rw [if_neg h5, if_pos h6, if_pos h4, readAt_eq lru i (by omega)]
    · have h5 : idx ≤ i ∧ i < idx + (wss - 1 - idx) ∧ i < temp.length := by omega
      rw [if_pos h5, if_neg h4, readAt_eq lru (i + 1) (by omega)]
  · have h3 : ¬ (i < lru.length - 1) := by omega
    have h5 : ¬ (idx ≤ i ∧ i < idx + (wss - 1 - idx) ∧ i < temp.length) := by omega
    rw [if_neg h3, if_neg h5]
    by_cases h1 : wss - 1 = i
    · have h4 : wss - 1 < temp.length := by omega
      have h7 : i - (lru.length - 1) = 0 := by omega
      rw [if_pos h1, if_pos h4, h7]
      simp
    · have h6 : ¬ (0 ≤ i ∧ i < 0 + idx ∧ i < temp.length) := by omega
      rw [if_neg h1, if_neg h6, List.getElem?_eq_none (by omega),
        List.getElem?_eq_none (by simp; omega)]

/-! ## The search loop of `LRU` -/

theorem LRUscan_fold (lru : List Int) (d : Int) (i0 : Nat) :
    ∀ n : Nat,
      (((List.range n).foldl
          (fun acc q => if readAt lru q = d then (true, q) else acc) (false, i0)).1 = true →
        ((List.range n).foldl
            (fun acc q => if readAt lru q = d then (true, q) else acc) (false, i0)).2 < n ∧
          readAt lru ((List.range n).foldl
            (fun acc q => if readAt lru q = d then (true, q) else acc) (false, i0)).2 = d ∧
          ∀ q, ((List.range n).foldl
            (fun acc q => if readAt lru q = d then (true, q) else acc) (false, i0)).2 < q →
            q < n → readAt lru q ≠ d) ∧
      (((List.range n).foldl
          (fun acc q => if readAt lru q = d then (true, q) else acc) (false, i0)).1 = false →
        ((List.range n).foldl
            (fun acc q => if readAt lru q = d then (true, q) else acc) (false, i0)).2 = i0 ∧
          ∀ q, q < n → readAt lru q ≠ d) := by
  intro n
  induction n with
  | zero => simp
  | succ n ih =>
    rw [List.range_succ, List.foldl_append]
    generalize (List.range n).foldl
      (fun acc q => if readAt lru q = d then (true, q) else acc) (false, i0) = r at ih ⊢
    obtain ⟨b, k⟩ := r
    simp only [List.foldl_cons, List.foldl_nil]
    by_cases hn : readAt lru n = d
    · rw [if_pos hn]
      refine ⟨fun _ => ⟨Nat.lt_succ_self n, hn, fun q h1 h2 => by omega⟩, fun h => by simp at h⟩
    · rw [if_neg hn]
      refine ⟨fun hb => ?_, fun hb => ?_⟩
      · obtain ⟨h1, h2, h3⟩ := ih.1 hb
        refine ⟨Nat.lt_succ_of_lt h1, h2, fun q hq1 hq2 => ?_⟩
        by_cases hqn : q = n
        · subst hqn; exact hn
        · exact h3 q hq1 (by omega)
      · obtain ⟨h1, h2⟩ := ih.2 hb
        refine ⟨h1, fun q hq => ?_⟩
        by_cases hqn : q = n
        · subst hqn; exact hn
        · exact h2 q (by omega)

theorem mem_iff_readAt (l : List Int) (d : Int) :
    d ∈ l ↔ ∃ q, q < l.length ∧ readAt l q = d := by
  rw [List.mem_iff_getElem]
  constructor
  · rintro ⟨n, h, hn⟩
    refine ⟨n, h, ?_⟩
    have := readAt_eq l n h
    rw [List.getElem?_eq_getElem h] at this
    rw [← hn]; exact (Option.some.inj this).symm
  · rintro ⟨q, h, hq⟩
    refine ⟨q, h, ?_⟩
    have := readAt_eq l q h
    rw [List.getElem?_eq_getElem h] at this
    rw [← hq]; exact Option.some.inj this

/-- The search loop finds a match exactly when the page is in the table. -/
theorem LRUscan_found_iff (wss : Nat) (lru : List Int) (d : Int) (i0 : Nat)
    (hl : lru.length = wss) : (LRUscan wss lru d i0).1 = true ↔ d ∈ lru := by
  have h := LRUscan_fold lru d i0 wss
  unfold LRUscan
  rw [mem_iff_readAt]
  constructor
  · intro hf
    obtain ⟨h1, h2, _⟩ := h.1 hf
    exact ⟨_, by omega, h2⟩
  · rintro ⟨q, hq, hqd⟩
    by_contra hf
    have hf2 := h.2 (by simpa using hf)
    exact hf2.2 q (by omega) hqd

/-- After a successful search `indexFound` is the last slot holding the page. -/
theorem LRUscan_index (wss : Nat) (lru : List Int) (d : Int) (i0 : Nat)
    (hf : (LRUscan wss lru d i0).1 = true) :
    (LRUscan wss lru d i0).2 < wss ∧ readAt lru (LRUscan wss lru d i0).2 = d ∧
      ∀ q, (LRUscan wss lru d i0).2 < q → q < wss → readAt lru q ≠ d :=
  (LRUscan_fold lru d i0 wss).1 hf

theorem eraseIdx_last_eq (l : List Int) (d : Int) (idx : Nat) (h : idx < l.length)
    (hd : readAt l idx = d) (hlast : ∀ q, idx < q → q < l.length → readAt l q ≠ d) :
    l.eraseIdx idx = (l.reverse.erase d).reverse := by
  have hnot : d ∉ l.drop (idx + 1) := by
    intro hmem
    obtain ⟨k, hk, hkd⟩ := (mem_iff_readAt _ _).1 hmem
    rw [List.length_drop] at hk
    have h1 : readAt l (idx + 1 + k) = d := by
      rw [← hkd]
      simp [readAt, List.getD_eq_getElem?_getD, List.getElem?_drop]
    exact hlast (idx + 1 + k) (by omega) (by omega) h1
  have hidx : l[idx] = d := by
    have := readAt_eq l idx h
    rw [List.getElem?_eq_getElem h] at this
    rw [← hd]; exact Option.some.inj this
  have hsplit : l = l.take idx ++ d :: l.drop (idx + 1) := by
    rw [← hidx, ← List.drop_eq_getElem_cons h, List.take_append_drop]
  rw [List.eraseIdx_eq_take_drop_succ]
  generalize l.take idx = A at hsplit ⊢
  generalize l.drop (idx + 1) = C at hsplit hnot ⊢
  subst hsplit
  rw [List.reverse_append, List.reverse_cons, List.append_assoc,
    List.erase_append_right _ (by simpa using hnot)]
  simp

/-! ## One step of `LRU` -/

theorem readAt_mem (l : List Int) (i : Nat) (h : i < l.length) : readAt l i ∈ l :=
  (mem_iff_readAt l _).2 ⟨i, h, rfl⟩

theorem length_eraseIdx_snoc (l : List Int) (idx : Nat) (x : Int) (h : idx < l.length) :
    (l.eraseIdx idx ++ [x]).length = l.length := by
  rw [List.length_append, List.length_eraseIdx_of_lt h, List.length_singleton]
  omega

theorem length_tail_snoc (l : List Int) (x : Int) (h : 1 ≤ l.length) :
    (l.tail ++ [x]).length = l.length := by
  rw [List.length_append, List.length_tail, List.length_singleton]
  omega

/-- The step of `LRU` when the emptiness test fails and the page is found. -/
theorem LRUstep_hit (wss : Nat) (past : Int) (s : LRUState) (d : Int)
    (hl : s.lru.length = wss) (ht : s.temp.length = wss)
    (hp : LRUprobe wss past s ≠ -1) (hd : d ∈ s.lru) :
    LRUstep wss past s d =
      { lru := s.lru.eraseIdx (LRUscan wss s.lru d s.indexFound).2 ++ [d],
        temp := s.lru.eraseIdx (LRUscan wss s.lru d s.indexFound).2 ++ [d],
        pointer := wss, pageFault := s.pageFault,
        indexFound := (LRUscan wss s.lru d s.indexFound).2 } := by
  have hf := (LRUscan_found_iff wss s.lru d s.indexFound hl).2 hd
  obtain ⟨h1, h2, _⟩ := LRUscan_index wss s.lru d s.indexFound hf
  unfold LRUstep
  rw [if_neg hp]
  simp only [hf, if_true]
  have hm := LRUmoveToBack_eq wss s.lru s.temp _ h1 hl ht
  rw [h2] at hm
  rw [hm, LRUcopyBack_eq wss _ _ hl
    (by rw [length_eraseIdx_snoc _ _ _ (by omega)]; exact hl)]

/-- The step of `LRU` when the emptiness test fails and the page is not found. -/
theorem LRUstep_miss (wss : Nat) (past : Int) (s : LRUState) (d : Int) (hw : 1 ≤ wss)
    (hl : s.lru.length = wss) (ht : s.temp.length = wss)
    (hp : LRUprobe wss past s ≠ -1) (hd : d ∉ s.lru) :
    LRUstep wss past s d =
      { lru := s.lru.tail ++ [d], temp := s.lru.tail ++ [d],
        pointer := wss, pageFault := s.pageFault + 1, indexFound := s.indexFound } := by
  have hf : (LRUscan wss s.lru d s.indexFound).1 = false := by
    have := (LRUscan_found_iff wss s.lru d s.indexFound hl).not.2 hd
    simpa using this
  have hi : (LRUscan wss s.lru d s.indexFound).2 = s.indexFound :=
    ((LRUscan_fold s.lru d s.indexFound wss).2 hf).1
  unfold LRUstep
  rw [if_neg hp]
  simp only [hf, hi, Bool.false_eq_true, if_false]
  rw [LRUevict_eq wss _ _ d hw hl ht, LRUcopyBack_eq wss _ _ hl
    (by rw [length_tail_snoc _ _ (by omega)]; exact hl)]

/-- In list form: the table after a step with a failed emptiness test. -/
theorem LRUstep_search (wss : Nat) (past : Int) (s : LRUState) (d : Int) (hw : 1 ≤ wss)
    (hl : s.lru.length = wss) (ht : s.temp.length = wss)
    (hp : LRUprobe wss past s ≠ -1) :
    (LRUstep wss past s d).lru = lruNext s.lru d ∧
      (LRUstep wss past s d).lru.length = wss ∧
      (LRUstep wss past s d).temp.length = wss ∧
      (LRUstep wss past s d).pointer = wss ∧
      (LRUstep wss past s d).pageFault = s.pageFault + (if d ∈ s.lru then 0 else 1) := by
  by_cases hd : d ∈ s.lru
  · have hf := (LRUscan_found_iff wss s.lru d s.indexFound hl).2 hd
    obtain ⟨h1, h2, h3⟩ := LRUscan_index wss s.lru d s.indexFound hf
    rw [LRUstep_hit wss past s d hl ht hp hd]
    simp only [lruNext, if_pos hd, add_zero, and_true, true_and]
    refine ⟨?_, ?_, ?_⟩
    · rw [eraseIdx_last_eq s.lru d _ (by omega) h2 (fun q hq1 hq2 => h3 q hq1 (by omega))]
    · rw [length_eraseIdx_snoc _ _ _ (by omega)]; exact hl
    · rw [length_eraseIdx_snoc _ _ _ (by omega)]; exact hl
  · rw [LRUstep_miss wss past s d hw hl ht hp hd]
    simp only [lruNext, if_neg hd, and_true, true_and]
    rw [length_tail_snoc _ _ (by omega)]; exact ⟨hl, hl⟩

/-! ## The trace loop of `LRU` -/

theorem LRUloop_append (wss : Nat) (past : Nat → Int) :
    ∀ (xs ys : List Int) (j : Nat) (s : LRUState),
      LRUloop wss past j (xs ++ ys) s =
        LRUloop wss past (j + xs.length) ys (LRUloop wss past j xs s) := by
  intro xs
  induction xs with
  | nil => intro ys j s; simp [LRUloop]
  | cons x xs ih =>
    intro ys j s
    show LRUloop wss past (j + 1) (xs ++ ys) (LRUstep wss (past j) s x) =
      LRUloop wss past (j + (xs.length + 1)) ys
        (LRUloop wss past (j + 1) xs (LRUstep wss (past j) s x))
    rw [ih]
    congr 1
    omega

theorem LRUinit_eq_warm (wss : Nat) : LRUinit wss = LRUwarm wss [] := by
  simp [LRUinit, LRUwarm]

theorem LRUstep_warm (wss : Nat) (past : Int) (pre : List Int) (d : Int)
    (h : pre.length < wss) :
    LRUstep wss past (LRUwarm wss pre) d = LRUwarm wss (pre ++ [d]) := by
  have hk : pre.length % wss = pre.length := Nat.mod_eq_of_lt h
  have hrep : List.replicate (wss - pre.length) (-1 : Int) =
      -1 :: List.replicate (wss - (pre.length + 1)) (-1) := by
    have : wss - pre.length = (wss - (pre.length + 1)) + 1 := by omega
    rw [this, List.replicate_succ]
  have hprobe : LRUprobe wss past (LRUwarm wss pre) = -1 := by
    simp only [LRUprobe, LRUwarm, hk, if_pos h, readAt, List.getD_eq_getElem?_getD]
    rw [List.getElem?_append_right (le_refl _), hrep]
    simp
  unfold LRUstep
  rw [if_pos hprobe]
  simp only [LRUwarm, hk, List.length_append, List.length_singleton]
  rw [hrep]
  simp [List.set_append]

theorem LRUloop_warm (wss : Nat) (past : Nat → Int) :
    ∀ (ds pre : List Int) (j : Nat), pre.length + ds.length ≤ wss →
      LRUloop wss past j ds (LRUwarm wss pre) = LRUwarm wss (pre ++ ds) := by
  intro ds
  induction ds with
  | nil => intro pre j _; simp [LRUloop]
  | cons d ds ih =>
    intro pre j h
    simp only [List.length_cons] at h
    simp only [LRUloop]
    rw [LRUstep_warm wss (past j) pre d (by omega), ih (pre ++ [d]) (j + 1) (by simp; omega)]
    simp

/-! ## The table of `LRU` in list form -/

theorem lruNext_mem (T : List Int) (d x : Int) (h : x ∈ lruNext T d) : x ∈ T ∨ x = d := by
  unfold lruNext at h
  split_ifs at h
  · rcases List.mem_append.1 h with h1 | h1
    · left
      exact List.mem_reverse.1 (List.mem_of_mem_erase (List.mem_reverse.1 h1))
    · right; simpa using h1
  · rcases List.mem_append.1 h with h1 | h1
    · left; exact List.mem_of_mem_tail h1
    · right; simpa using h1

theorem lruNext_sublist_snoc (T : List Int) (d : Int) : List.Sublist (lruNext T d) (T ++ [d]) := by
  unfold lruNext
  split_ifs
  · refine List.Sublist.append ?_ (List.Sublist.refl _)
    have h := (List.erase_sublist d T.reverse).reverse
    rwa [List.reverse_reverse] at h
  · exact List.Sublist.append (List.tail_sublist T) (List.Sublist.refl _)

theorem lruTable_sublist : ∀ (xs T : List Int), List.Sublist (lruTable T xs) (T ++ xs) := by
  intro xs
  induction xs with
  | nil => intro T; simp [lruTable]
  | cons d ds ih =>
    intro T
    have h1 := ih (lruNext T d)
    have h2 := List.Sublist.append (lruNext_sublist_snoc T d) (List.Sublist.refl ds)
    simp only [lruTable]
    simpa using h1.trans h2

theorem lruFaults_append : ∀ (xs ys T : List Int),
    lruFaults T (xs ++ ys) = lruFaults T xs + lruFaults (lruTable T xs) ys := by
  intro xs
  induction xs with
  | nil => intro ys T; simp [lruFaults, lruTable]
  | cons d ds ih =>
    intro ys T
    show (if d ∈ T then 0 else 1) + lruFaults (lruNext T d) (ds ++ ys) =
      (if d ∈ T then 0 else 1) + lruFaults (lruNext T d) ds +
        lruFaults (lruTable (lruNext T d) ds) ys
    rw [ih]
    omega

theorem lruNext_mono (S B : List Int) (d : Int) (h : List.Sublist S B) :
    List.Sublist (lruNext S d) (lruNext B d) := by
  unfold lruNext
  by_cases hS : d ∈ S
  · have hB : d ∈ B := h.subset hS
    rw [if_pos hS, if_pos hB]
    exact List.Sublist.append ((h.reverse.erase d).reverse) (List.Sublist.refl _)
  · rw [if_neg hS]
    by_cases hB : d ∈ B
    · rw [if_pos hB]
      refine List.Sublist.append ?_ (List.Sublist.refl _)
      have h1 : S.reverse.erase d = S.reverse :=
        List.erase_of_not_mem (by simpa using hS)
      have h2 := (h.reverse.erase d).reverse
      rw [h1, List.reverse_reverse] at h2
      exact (List.tail_sublist S).trans h2
    · rw [if_neg hB]
      exact List.Sublist.append h.tail (List.Sublist.refl _)

theorem lruFaults_mono : ∀ (ds S B : List Int), List.Sublist S B → lruFaults B ds ≤ lruFaults S ds := by
  intro ds
  induction ds with
  | nil => intro S B _; simp [lruFaults]
  | cons d ds ih =>
    intro S B h
    have h1 := ih _ _ (lruNext_mono S B d h)
    simp only [lruFaults]
    by_cases hS : d ∈ S
    · have hB : d ∈ B := h.subset hS
      rw [if_pos hS, if_pos hB]; omega
    · rw [if_neg hS]
      split_ifs <;> omega

/-- The emptiness test of `LRU` fails when the slot under an in-range cursor
is in use and the word behind the table is not `-1`. -/
theorem LRUprobe_ne (wss : Nat) (past : Int) (s : LRUState)
    (hslot : s.pointer < wss → readAt s.lru s.pointer ≠ -1) (hpast : past ≠ -1) :
    LRUprobe wss past s ≠ -1 := by
  unfold LRUprobe
  split_ifs with h
  · exact hslot h
  · exact hpast

/-- Once the emptiness test fails, and as long as the word behind the table
is not `-1`, the trace loop follows `lruNext` and counts with `lruFaults`. -/
theorem LRUloop_search (wss : Nat) (past : Nat → Int) (hw : 1 ≤ wss)
    (hpast : ∀ i, past i ≠ -1) :
    ∀ (ds : List Int) (j : Nat) (s : LRUState), s.lru.length = wss → s.temp.length = wss →
      (s.pointer < wss → readAt s.lru s.pointer ≠ -1) →
      (LRUloop wss past j ds s).pageFault = s.pageFault + lruFaults s.lru ds ∧
        (LRUloop wss past j ds s).lru = lruTable s.lru ds ∧
        (LRUloop wss past j ds s).lru.length = wss ∧
        (LRUloop wss past j ds s).temp.length = wss ∧
        ((LRUloop wss past j ds s).pointer < wss →
          readAt (LRUloop wss past j ds s).lru (LRUloop wss past j ds s).pointer ≠ -1) := by
  intro ds
  induction ds with
  | nil => intro j s hl ht hs; exact ⟨by simp [LRUloop, lruFaults], by simp [LRUloop, lruTable], hl, ht, hs⟩
  | cons d ds ih =>
    intro j s hl ht hs
    have hp := LRUprobe_ne wss (past j) s hs (hpast j)
    obtain ⟨h1, h2, h3, h4, h5⟩ := LRUstep_search wss (past j) s d hw hl ht hp
    have := ih (j + 1) (LRUstep wss (past j) s d) h2 h3 (fun h => by omega)
    obtain ⟨t1, t2, t3, t4, t5⟩ := this
    simp only [LRUloop, lruFaults, lruTable]
    refine ⟨?_, ?_, t3, t4, t5⟩
    · rw [t1, h5, h1]; omega
    · rw [t2, h1]

/-- The state of `LRU` after the first `wss` references of a trace that has
that many. -/
theorem LRUafter_wss (past : Nat → Int) (wss : Nat) (data : List Int)
    (hlen : wss ≤ data.length) :
    LRUafter past wss data wss =
      { lru := data.take wss, temp := List.replicate wss 0, pointer := wss % wss,
        pageFault := 0, indexFound := 0 } := by
  have hT : (data.take wss).length = wss := by simp [hlen]
  unfold LRUafter
  rw [LRUinit_eq_warm, LRUloop_warm wss past _ [] 0 (by simp)]
  simp [LRUwarm, hT]

theorem readAt_take_zero (wss : Nat) (data : List Int) (hw : 1 ≤ wss)
    (hfirst : data.head? ≠ some (-1)) (hlen : wss ≤ data.length) :
    readAt (data.take wss) 0 ≠ -1 := by
  cases data with
  | nil => simp at hlen; omega
  | cons x xs =>
    obtain ⟨m, rfl⟩ : ∃ m, wss = m + 1 := ⟨wss - 1, by omega⟩
    simp only [List.head?_cons, ne_eq, Option.some.injEq] at hfirst
    simpa [readAt] using hfirst

/-- The count returned by `LRU`, for a trace whose first reference is not
`-1` and a word behind the table that never reads `-1`: the first `wss`
references fill the table, the others are counted by `lruFaults`. -/
theorem LRU_eq_lruFaults (past : Nat → Int) (wss : Nat) (data : List Int) (hw : 1 ≤ wss)
    (hfirst : data.head? ≠ some (-1)) (hpast : ∀ i, past i ≠ -1) :
    LRU past wss data = lruFaults (data.take wss) (data.drop wss) := by
  have hsplit : LRUloop wss past 0 data (LRUinit wss) =
      LRUloop wss past (0 + (data.take wss).length) (data.drop wss)
        (LRUafter past wss data wss) := by
    conv_lhs => rw [← List.take_append_drop wss data]
    rw [LRUloop_append]
    rfl
  unfold LRU
  rw [hsplit]
  by_cases hlen : wss ≤ data.length
  · rw [LRUafter_wss past wss data hlen]
    have h := LRUloop_search wss past hw hpast (data.drop wss) (0 + (data.take wss).length)
      { lru := data.take wss, temp := List.replicate wss 0, pointer := wss % wss,
        pageFault := 0, indexFound := 0 }
      (by simp [hlen]) (by simp)
      (fun _ => by
        simp only [Nat.mod_self]
        exact readAt_take_zero wss data hw hfirst hlen)
    rw [h.1]
    simp
  · have hdrop : data.drop wss = [] := List.drop_eq_nil_of_le (by omega)
    rw [hdrop]
    simp only [LRUloop, lruFaults]
    unfold LRUafter
    rw [LRUinit_eq_warm, LRUloop_warm wss past _ [] 0 (by simp)]
    rfl

/-! ## The state of `LRU` at a reference after the fills -/

theorem LRUafter_succ (past : Nat → Int) (wss : Nat) (data : List Int) (j : Nat)
    (hj : j < data.length) :
    LRUafter past wss data (j + 1) =
      LRUstep wss (past j) (LRUafter past wss data j) (readAt data j) := by
  have htake : data.take (j + 1) = data.take j ++ [readAt data j] := by
    rw [List.take_succ, List.getElem?_eq_getElem hj]
    have := readAt_eq data j hj
    rw [List.getElem?_eq_getElem hj] at this
    rw [Option.some.inj this]
    rfl
  have hlen : (data.take j).length = j := by simp; omega
  unfold LRUafter
  rw [htake, LRUloop_append, hlen]
  simp [LRUloop]

/-- From the reference of index `wss` on, the emptiness test of `LRU` fails
(the first reference not being `-1`, nor the word behind the table). -/
theorem LRUafter_searching (past : Nat → Int) (wss : Nat) (data : List Int) (hw : 1 ≤ wss)
    (hfirst : data.head? ≠ some (-1)) (hpast : ∀ i, past i ≠ -1) :
    ∀ j, wss ≤ j → j ≤ data.length →
      (LRUafter past wss data j).lru.length = wss ∧
        (LRUafter past wss data j).temp.length = wss ∧
        ((LRUafter past wss data j).pointer < wss →
          readAt (LRUafter past wss data j).lru (LRUafter past wss data j).pointer ≠ -1) := by
  intro j hj
  induction j, hj using Nat.le_induction with
  | base =>
    intro hlen
    rw [LRUafter_wss past wss data hlen]
    refine ⟨by simp [hlen], by simp, fun _ => ?_⟩
    simp only [Nat.mod_self]
    exact readAt_take_zero wss data hw hfirst hlen
  | succ j hj ih =>
    intro hlen
    obtain ⟨hl, ht, hs⟩ := ih (by omega)
    rw [LRUafter_succ past wss data j (by omega)]
    have hp := LRUprobe_ne wss (past j) _ hs (hpast j)
    obtain ⟨_, h2, h3, h4, _⟩ := LRUstep_search wss (past j) _ (readAt data j) hw hl ht hp
    exact ⟨h2, h3, fun h => by omega⟩

/-- Search and count in one step of `LRU` whose emptiness test fails. -/
theorem LRUstep_count (wss : Nat) (past : Int) (s : LRUState) (d : Int)
    (hw : 1 ≤ wss) (hl : s.lru.length = wss) (ht : s.temp.length = wss)
    (hp : LRUprobe wss past s ≠ -1) :
    ((LRUscan wss s.lru d s.indexFound).1 = true ↔ ∃ q, q < wss ∧ readAt s.lru q = d) ∧
      (LRUstep wss past s d).pointer = wss ∧
      ((∀ q, q < wss → readAt s.lru q ≠ d) →
        (LRUstep wss past s d).pageFault = s.pageFault + 1) ∧
      ((∃ q, q < wss ∧ readAt s.lru q = d) →
        (LRUstep wss past s d).pageFault = s.pageFault) := by
  have hmem : d ∈ s.lru ↔ ∃ q, q < wss ∧ readAt s.lru q = d := by
    rw [mem_iff_readAt, hl]
  obtain ⟨_, _, _, h4, h5⟩ := LRUstep_search wss past s d hw hl ht hp
  refine ⟨(LRUscan_found_iff wss s.lru d s.indexFound hl).trans hmem, h4, ?_, ?_⟩
  · intro hno
    have hd : d ∉ s.lru := fun h => by
      obtain ⟨q, hq, hqd⟩ := hmem.1 h
      exact hno q hq hqd
    rw [h5, if_neg hd]
  · intro hex
    rw [h5, if_pos (hmem.2 hex), Nat.add_zero]

theorem eraseIdx_snoc_perm (l : List Int) (i : Nat) (h : i < l.length) :
    List.Perm (l.eraseIdx i ++ [readAt l i]) l := by
  have hidx : readAt l i = l[i] := by
    have := readAt_eq l i h
    rw [List.getElem?_eq_getElem h] at this
    exact (Option.some.inj this).symm
  have hsplit : l.take i ++ l[i] :: l.drop (i + 1) = l := by
    rw [← List.drop_eq_getElem_cons h, List.take_append_drop]
  rw [hidx, List.eraseIdx_eq_take_drop_succ]
  have h1 : List.Perm (l.take i ++ l.drop (i + 1) ++ [l[i]])
      (l.take i ++ l[i] :: l.drop (i + 1)) := by
    rw [List.append_assoc]
    exact List.Perm.append_left _ (List.perm_append_singleton _ _)
  rw [hsplit] at h1
  exact h1

/-- The new table after one step of `LRU` whose emptiness test fails. -/
theorem LRUstep_table (wss : Nat) (past : Int) (s : LRUState) (d : Int)
    (hw : 1 ≤ wss) (hl : s.lru.length = wss) (ht : s.temp.length = wss)
    (hp : LRUprobe wss past s ≠ -1) :
    (d ∈ s.lru →
        ∃ i, i < wss ∧ readAt s.lru i = d ∧ (∀ q, i < q → q < wss → readAt s.lru q ≠ d) ∧
          (LRUstep wss past s d).lru = s.lru.eraseIdx i ++ [d] ∧
          List.Perm (LRUstep wss past s d).lru s.lru ∧
          (LRUstep wss past s d).pageFault = s.pageFault) ∧
      (d ∉ s.lru →
        (LRUstep wss past s d).lru = s.lru.eraseIdx 0 ++ [d] ∧
          (LRUstep wss past s d).pageFault = s.pageFault + 1) := by
  refine ⟨fun hd => ?_, fun hd => ?_⟩
  · have hf := (LRUscan_found_iff wss s.lru d s.indexFound hl).2 hd
    obtain ⟨h1, h2, h3⟩ := LRUscan_index wss s.lru d s.indexFound hf
    refine ⟨_, h1, h2, h3, ?_, ?_, ?_⟩
    · rw [LRUstep_hit wss past s d hl ht hp hd]
    · rw [LRUstep_hit wss past s d hl ht hp hd]
      have := eraseIdx_snoc_perm s.lru (LRUscan wss s.lru d s.indexFound).2 (by omega)
      rwa [h2] at this
    · rw [LRUstep_hit wss past s d hl ht hp hd]
  · rw [LRUstep_miss wss past s d hw hl ht hp hd]
    simp

/-! ## The table of `FIFO` as a queue -/

theorem readAt_rotate_zero (l : List Int) (p : Nat) (h : p < l.length) :
    readAt (l.rotate p) 0 = readAt l p := by
  rw [List.rotate_eq_drop_append_take (le_of_lt h)]
  simp only [readAt, List.getD_eq_getElem?_getD]
  rw [List.getElem?_append_left (by simp; omega), List.getElem?_drop]
  simp

theorem rotate_set_succ (l : List Int) (p : Nat) (d : Int) (h : p < l.length) :
    (l.set p d).rotate ((p + 1) % l.length) = (l.rotate p).tail ++ [d] := by
  have h1 : (l.set p d).rotate ((p + 1) % l.length) = (l.set p d).rotate (p + 1) := by
    have := List.rotate_mod (l.set p d) (p + 1)
    rwa [List.length_set] at this
  have h2 : l.set p d = (l.take p ++ [d]) ++ l.drop (p + 1) := by
    rw [List.set_eq_take_append_cons_drop, if_pos h]
    simp
  have h3 : (l.take p ++ [d]).length = p + 1 := by
    simp [List.length_take]; omega
  rw [h1, h2]
  have h4 := List.rotate_append_length_eq (l.take p ++ [d]) (l.drop (p + 1))
  rw [h3] at h4
  rw [h4, List.rotate_eq_drop_append_take (le_of_lt h), List.drop_eq_getElem_cons h,
    List.cons_append, List.tail_cons, List.append_assoc]

theorem readAt_append_left (a b : List Int) (i : Nat) (h : i < a.length) :
    readAt (a ++ b) i = readAt a i := by
  simp [readAt, List.getD_eq_getElem?_getD, List.getElem?_append_left h]

theorem readAt_append_length (a : List Int) (d : Int) : readAt (a ++ [d]) a.length = d := by
  simp [readAt, List.getD_eq_getElem?_getD]

theorem NoRepeatWithin_init (n : Nat) (P : List Int) (d : Int)
    (h : NoRepeatWithin n (P ++ [d])) : NoRepeatWithin n P := by
  intro j hj i hi hn
  have := h j (by simp; omega) i hi hn
  rwa [readAt_append_left _ _ _ hj, readAt_append_left _ _ _ (by omega)] at this

theorem NoRepeatWithin_mono (n m : Nat) (data : List Int) (hnm : n ≤ m)
    (h : NoRepeatWithin m data) : NoRepeatWithin n data :=
  fun j hj i hi hn => h j hj i hi (by omega)

/-- On a trace without `-1` and without a repeat among any `wss + 1`
consecutive references, every reference of `FIFO` stores and advances: the
table read from the cursor on is the last `wss` entries of the history. -/
theorem FIFOrun_noRepeat (wss : Nat) (hw : 1 ≤ wss) :
    ∀ P : List Int, (∀ x ∈ P, x ≠ -1) → NoRepeatWithin (wss + 1) P →
      (FIFOrun wss P).fifoArray.length = wss ∧ (FIFOrun wss P).pointer < wss ∧
        (FIFOrun wss P).fifoArray.rotate (FIFOrun wss P).pointer =
          (List.replicate wss (-1) ++ P).drop P.length ∧
        (FIFOrun wss P).pageFault = P.length - wss := by
  intro P
  induction P using List.reverseRecOn with
  | nil =>
    intro _ _
    simp [FIFOrun, FIFOinit]
    omega
  | append_singleton P d ih =>
    intro hne hnr
    obtain ⟨hl, hp, hq, hf⟩ := ih (fun x hx => hne x (List.mem_append_left _ hx))
      (NoRepeatWithin_init _ _ _ hnr)
    have hrun : FIFOrun wss (P ++ [d]) = FIFOstep wss (FIFOrun wss P) d := by
      simp [FIFOrun, List.foldl_append]
    have hd : d ≠ -1 := hne d (by simp)
    have hhead : readAt (FIFOrun wss P).fifoArray (FIFOrun wss P).pointer =
        readAt (List.replicate wss (-1) ++ P) P.length := by
      rw [← readAt_rotate_zero _ _ (by omega), hq]
      simp [readAt, List.getD_eq_getElem?_getD, List.getElem?_drop]
    have hnext : ((FIFOrun wss P).fifoArray.set (FIFOrun wss P).pointer d).rotate
        (((FIFOrun wss P).pointer + 1) % wss) =
        (List.replicate wss (-1) ++ (P ++ [d])).drop (P ++ [d]).length := by
      have := rotate_set_succ (FIFOrun wss P).fifoArray (FIFOrun wss P).pointer d (by omega)
      rw [hl] at this
      have hle : P.length + 1 ≤ (List.replicate wss (-1 : Int) ++ P).length := by
        rw [List.length_append, List.length_replicate]; omega
      rw [this, hq, List.tail_drop, List.length_append, List.length_singleton,
        ← List.append_assoc, List.drop_append_of_le_length hle]
    have hmod : ((FIFOrun wss P).pointer + 1) % wss < wss := Nat.mod_lt _ (by omega)
    rw [hrun]
    by_cases hlt : P.length < wss
    · have hempty : readAt (FIFOrun wss P).fifoArray (FIFOrun wss P).pointer = -1 := by
        rw [hhead, readAt_append_left _ _ _ (by simp; omega)]
        simp [readAt, List.getD_eq_getElem?_getD, List.getElem?_replicate, hlt]
      unfold FIFOstep
      rw [if_pos hempty]
      refine ⟨by simp [hl], hmod, hnext, ?_⟩
      simp only [hf, List.length_append, List.length_singleton]
      omega
    · have hval : readAt (FIFOrun wss P).fifoArray (FIFOrun wss P).pointer =
          readAt P (P.length - wss) := by
        rw [hhead]
        simp only [readAt, List.getD_eq_getElem?_getD]
        rw [List.getElem?_append_right (by simp; omega)]
        simp
      have hne1 : readAt (FIFOrun wss P).fifoArray (FIFOrun wss P).pointer ≠ -1 := by
        rw [hval]
        exact hne _ (List.mem_append_left _ (readAt_mem _ _ (by omega)))
      have hne2 : readAt (FIFOrun wss P).fifoArray (FIFOrun wss P).pointer ≠ d := by
        rw [hval]
        have := hnr P.length (by simp) (P.length - wss) (by omega) (by omega)
        rwa [readAt_append_left _ _ _ (by omega), readAt_append_length] at this
      unfold FIFOstep
      rw [if_neg hne1, if_pos hne2]
      refine ⟨by simp [hl], hmod, hnext, ?_⟩
      simp only [hf, List.length_append, List.length_singleton]
      omega

/-! ## The warm-up of `Clock` -/

theorem ClockScan_stop (wss : Nat) (d : Int) (n : Nat) (s : ClockState) (hn : 1 ≤ n)
    (h : (ClockInspect wss s d).2 = true) :
    ClockScan wss d n s = ((ClockInspect wss s d).1, 1) := by
  obtain ⟨m, rfl⟩ : ∃ m, n = m + 1 := ⟨n - 1, by omega⟩
  simp only [ClockScan, h, if_true]

theorem ClockInit_eq_warm (wss : Nat) : ClockInit wss = ClockWarm wss [] := by
  simp [ClockInit, ClockWarm]

theorem ClockStep_warm (wss : Nat) (pre : List Int) (d : Int) (h : pre.length < wss) :
    ClockStep wss (ClockWarm wss pre) d = ClockWarm wss (pre ++ [d]) := by
  have hk : pre.length % wss = pre.length := Nat.mod_eq_of_lt h
  have hrep : ∀ v : Int, List.replicate (wss - pre.length) v =
      v :: List.replicate (wss - (pre.length + 1)) v := by
    intro v
    have : wss - pre.length = (wss - (pre.length + 1)) + 1 := by omega
    rw [this, List.replicate_succ]
  have hempty : readAt (ClockWarm wss pre).clock (ClockWarm wss pre).pointer = -1 := by
    simp only [ClockWarm, hk, readAt, List.getD_eq_getElem?_getD]
    rw [List.getElem?_append_right (le_refl _), hrep]
    simp
  have hins : ClockInspect wss (ClockWarm wss pre) d = (ClockWarm wss (pre ++ [d]), true) := by
    unfold ClockInspect
    rw [if_pos hempty]
    simp only [ClockWarm, hk, List.length_append, List.length_singleton]
    rw [hrep, hrep]
    have h1 : List.replicate (pre.length + 1) (1 : Int) = List.replicate pre.length 1 ++ [1] := by
      rw [List.replicate_succ']
    simp [List.set_append, h1]
  unfold ClockStep
  rw [ClockScan_stop wss d wss _ (by omega) (by rw [hins]), hins]

theorem ClockFold_warm (wss : Nat) :
    ∀ (ds pre : List Int), pre.length + ds.length ≤ wss →
      ds.foldl (ClockStep wss) (ClockWarm wss pre) = ClockWarm wss (pre ++ ds) := by
  intro ds
  induction ds with
  | nil => intro pre _; simp
  | cons d ds ih =>
    intro pre h
    simp only [List.length_cons] at h
    rw [List.foldl_cons, ClockStep_warm wss pre d (by omega),
      ih (pre ++ [d]) (by simp; omega)]
    simp

/-! ## The word behind the table matters only through the emptiness test -/

theorem LRUstep_congr (wss : Nat) (past past' : Int) (s : LRUState) (d : Int)
    (h : past = -1 ↔ past' = -1) : LRUstep wss past s d = LRUstep wss past' s d := by
  have hp : LRUprobe wss past s = -1 ↔ LRUprobe wss past' s = -1 := by
    unfold LRUprobe
    split_ifs
    · exact Iff.rfl
    · exact h
  unfold LRUstep
  by_cases h1 : LRUprobe wss past s = -1
  · rw [if_pos h1, if_pos (hp.1 h1)]
  · rw [if_neg h1, if_neg (fun h2 => h1 (hp.2 h2))]

theorem LRUloop_congr (wss : Nat) (past past' : Nat → Int)
    (h : ∀ i, past i = -1 ↔ past' i = -1) :
    ∀ (ds : List Int) (j : Nat) (s : LRUState),
      LRUloop wss past j ds s = LRUloop wss past' j ds s := by
  intro ds
  induction ds with
  | nil => intro j s; rfl
  | cons d ds ih =>
    intro j s
    simp only [LRUloop]
    rw [LRUstep_congr wss (past j) (past' j) s d (h j), ih]

/-- When the word behind the table never reads `-1`, the run of `LRU` is the
run in which that word always reads 0. -/
theorem LRUafter_pastZero (past : Nat → Int) (wss : Nat) (data : List Int) (j : Nat)
    (hpast : ∀ i, past i ≠ -1) : LRUafter past wss data j = LRUafter pastZero wss data j := by
  unfold LRUafter
  exact LRUloop_congr wss past pastZero
    (fun i => ⟨fun h => absurd h (hpast i), fun h => by simp [pastZero] at h⟩) _ _ _

theorem LRU_pastZero (past : Nat → Int) (wss : Nat) (data : List Int)
    (hpast : ∀ i, past i ≠ -1) : LRU past wss data = LRU pastZero wss data := by
  unfold LRU
  rw [LRUloop_congr wss past pastZero
    (fun i => ⟨fun h => absurd h (hpast i), fun h => by simp [pastZero] at h⟩)]

/-- With the cursor inside the table the step does not depend on the word
behind the table. -/
theorem LRUstep_inrange (wss : Nat) (past past' : Int) (s : LRUState) (d : Int)
    (h : s.pointer < wss) : LRUstep wss past s d = LRUstep wss past' s d := by
  have hp : LRUprobe wss past s = LRUprobe wss past' s := by
    unfold LRUprobe
    rw [if_pos h, if_pos h]
  unfold LRUstep
  rw [hp]

/-- The state after the fills and the first search does not depend on the
word behind the table. -/
theorem LRUafter_first_search (past : Nat → Int) (wss : Nat) (data : List Int)
    (hw : 1 ≤ wss) (hlen : wss < data.length) :
    LRUafter past wss data (wss + 1) = LRUafter pastZero wss data (wss + 1) := by
  rw [LRUafter_succ past wss data wss hlen, LRUafter_succ pastZero wss data wss hlen,
    LRUafter_wss past wss data (by omega), LRUafter_wss pastZero wss data (by omega)]
  exact LRUstep_inrange wss _ _ _ _ (by simp only [Nat.mod_self]; omega)

/-! ## Invariants of the three tables -/

theorem residents_le_length (t : List Int) : residents t ≤ t.length :=
  List.countP_le_length _

theorem mem_set_cases (l : List Int) (i : Nat) (d x : Int) (h : x ∈ l.set i d) :
    x ∈ l ∨ x = d := by
  rcases List.mem_or_eq_of_mem_set h with h1 | h1
  · exact Or.inl h1
  · exact Or.inr h1

theorem LRUstep_inv (wss : Nat) (past : Int) (s : LRUState) (d : Int) (pre : List Int)
    (hw : 1 ≤ wss) (hl : s.lru.length = wss) (ht : s.temp.length = wss)
    (hm : ∀ x ∈ s.lru, x ≠ -1 → x ∈ pre) :
    (LRUstep wss past s d).lru.length = wss ∧ (LRUstep wss past s d).temp.length = wss ∧
      ∀ x ∈ (LRUstep wss past s d).lru, x ≠ -1 → x ∈ pre ++ [d] := by
  by_cases hp : LRUprobe wss past s = -1
  · have hstep : LRUstep wss past s d =
        { s with lru := s.lru.set s.pointer d, pointer := (s.pointer + 1) % wss } := by
      unfold LRUstep
      rw [if_pos hp]
    rw [hstep]
    refine ⟨by simp [hl], ht, fun x hx hne => ?_⟩
    rcases mem_set_cases _ _ _ _ hx with h1 | h1
    · exact List.mem_append_left _ (hm x h1 hne)
    · rw [h1]; simp
  · obtain ⟨h1, h2, h3, _, _⟩ := LRUstep_search wss past s d hw hl ht hp
    refine ⟨h2, h3, fun x hx hne => ?_⟩
    rw [h1] at hx
    rcases lruNext_mem _ _ _ hx with h4 | h4
    · exact List.mem_append_left _ (hm x h4 hne)
    · rw [h4]; simp

theorem LRUloop_inv (wss : Nat) (past : Nat → Int) (hw : 1 ≤ wss) :
    ∀ (ds : List Int) (j : Nat) (s : LRUState) (pre : List Int),
      s.lru.length = wss → s.temp.length = wss → (∀ x ∈ s.lru, x ≠ -1 → x ∈ pre) →
      (LRUloop wss past j ds s).lru.length = wss ∧
        (LRUloop wss past j ds s).temp.length = wss ∧
        ∀ x ∈ (LRUloop wss past j ds s).lru, x ≠ -1 → x ∈ pre ++ ds := by
  intro ds
  induction ds with
  | nil => intro j s pre hl ht hm; simpa [LRUloop] using ⟨hl, ht, hm⟩
  | cons d ds ih =>
    intro j s pre hl ht hm
    obtain ⟨h1, h2, h3⟩ := LRUstep_inv wss (past j) s d pre hw hl ht hm
    have := ih (j + 1) _ (pre ++ [d]) h1 h2 h3
    simpa [LRUloop] using this

theorem LRUafter_inv (past : Nat → Int) (wss : Nat) (data : List Int) (j : Nat)
    (hw : 1 ≤ wss) :
    (LRUafter past wss data j).lru.length = wss ∧
      (LRUafter past wss data j).temp.length = wss ∧
      ∀ x ∈ (LRUafter past wss data j).lru, x ≠ -1 → x ∈ data.take j := by
  have h := LRUloop_inv wss past hw (data.take j) 0 (LRUinit wss) []
    (by simp [LRUinit]) (by simp [LRUinit])
    (by
      intro x hx hne
      simp only [LRUinit, List.mem_replicate] at hx
      exact absurd hx.2 hne)
  simpa [LRUafter] using h

theorem LRUafter_pageFault_mono (past : Nat → Int) (wss : Nat) (data : List Int) (j : Nat) :
    (LRUafter past wss data j).pageFault ≤ (LRUafter past wss data (j + 1)).pageFault := by
  by_cases hj : j < data.length
  · rw [LRUafter_succ past wss data j hj]
    exact (LRUstep_pageFault wss (past j) _ _).1
  · have h1 : data.take (j + 1) = data.take j := by
      rw [List.take_of_length_le (by omega), List.take_of_length_le (by omega)]
    unfold LRUafter
    rw [h1]

theorem FIFOstep_inv (wss : Nat) (s : FIFOState) (d : Int) (pre : List Int)
    (hl : s.fifoArray.length = wss) (hm : ∀ x ∈ s.fifoArray, x ≠ -1 → x ∈ pre) :
    (FIFOstep wss s d).fifoArray.length = wss ∧
      ∀ x ∈ (FIFOstep wss s d).fifoArray, x ≠ -1 → x ∈ pre ++ [d] := by
  have hset : ∀ x ∈ s.fifoArray.set s.pointer d, x ≠ -1 → x ∈ pre ++ [d] := by
    intro x hx hne
    rcases mem_set_cases _ _ _ _ hx with h1 | h1
    · exact List.mem_append_left _ (hm x h1 hne)
    · rw [h1]; simp
  unfold FIFOstep
  split_ifs
  · exact ⟨by simp [hl], hset⟩
  · exact ⟨by simp [hl], hset⟩
  · exact ⟨hl, fun x hx hne => List.mem_append_left _ (hm x hx hne)⟩

theorem FIFOfold_inv (wss : Nat) :
    ∀ (ds : List Int) (s : FIFOState) (pre : List Int),
      s.fifoArray.length = wss → (∀ x ∈ s.fifoArray, x ≠ -1 → x ∈ pre) →
      (ds.foldl (FIFOstep wss) s).fifoArray.length = wss ∧
        ∀ x ∈ (ds.foldl (FIFOstep wss) s).fifoArray, x ≠ -1 → x ∈ pre ++ ds := by
  intro ds
  induction ds with
  | nil => intro s pre hl hm; simpa using ⟨hl, hm⟩
  | cons d ds ih =>
    intro s pre hl hm
    obtain ⟨h1, h2⟩ := FIFOstep_inv wss s d pre hl hm
    have := ih _ (pre ++ [d]) h1 h2
    simpa using this

theorem FIFOrun_inv (wss : Nat) (data : List Int) :
    (FIFOrun wss data).fifoArray.length = wss ∧
      ∀ x ∈ (FIFOrun wss data).fifoArray, x ≠ -1 → x ∈ data := by
  have h := FIFOfold_inv wss data (FIFOinit wss) [] (by simp [FIFOinit])
    (by
      intro x hx hne
      simp only [FIFOinit, List.mem_replicate] at hx
      exact absurd hx.2 hne)
  simpa [FIFOrun] using h

theorem take_succ_snoc (data : List Int) (j : Nat) (hj : j < data.length) :
    data.take (j + 1) = data.take j ++ [readAt data j] := by
  rw [List.take_succ, List.getElem?_eq_getElem hj]
  have := readAt_eq data j hj
  rw [List.getElem?_eq_getElem hj] at this
  rw [Option.some.inj this]
  rfl

theorem FIFOrun_pageFault_mono (wss : Nat) (data : List Int) (j : Nat) :
    (FIFOrun wss (data.take j)).pageFault ≤ (FIFOrun wss (data.take (j + 1))).pageFault := by
  by_cases hj : j < data.length
  · rw [take_succ_snoc data j hj]
    unfold FIFOrun
    rw [List.foldl_append]
    exact (FIFOstep_pageFault wss _ _).1
  · rw [List.take_of_length_le (by omega), List.take_of_length_le (by omega)]

theorem ClockInspect_inv (wss : Nat) (s : ClockState) (d : Int) (pre : List Int)
    (hl : s.clock.length = wss) (hu : s.useBit.length = wss)
    (hm : ∀ x ∈ s.clock, x ≠ -1 → x ∈ pre ++ [d]) :
    (ClockInspect wss s d).1.clock.length = wss ∧
      (ClockInspect wss s d).1.useBit.length = wss ∧
      ∀ x ∈ (ClockInspect wss s d).1.clock, x ≠ -1 → x ∈ pre ++ [d] := by
  have hset : ∀ x ∈ s.clock.set s.pointer d, x ≠ -1 → x ∈ pre ++ [d] := by
    intro x hx hne
    rcases mem_set_cases _ _ _ _ hx with h1 | h1
    · exact hm x h1 hne
    · rw [h1]; simp
  unfold ClockInspect
  split_ifs
  · exact ⟨by simp [hl], by simp [hu], hset⟩
  · exact ⟨hl, by simp [hu], hm⟩
  · exact ⟨hl, by simp [hu], hm⟩
  · exact ⟨by simp [hl], by simp [hu], hset⟩

theorem ClockScan_inv (wss : Nat) (d : Int) (pre : List Int) :
    ∀ (n : Nat) (s : ClockState), s.clock.length = wss → s.useBit.length = wss →
      (∀ x ∈ s.clock, x ≠ -1 → x ∈ pre ++ [d]) →
      (ClockScan wss d n s).1.clock.length = wss ∧
        (ClockScan wss d n s).1.useBit.length = wss ∧
        ∀ x ∈ (ClockScan wss d n s).1.clock, x ≠ -1 → x ∈ pre ++ [d] := by
  intro n
  induction n with
  | zero => intro s hl hu hm; exact ⟨hl, hu, hm⟩
  | succ n ih =>
    intro s hl hu hm
    obtain ⟨h1, h2, h3⟩ := ClockInspect_inv wss s d pre hl hu hm
    simp only [ClockScan]
    split_ifs
    · exact ⟨h1, h2, h3⟩
    · exact ih _ h1 h2 h3

theorem ClockFold_inv (wss : Nat) :
    ∀ (ds : List Int) (s : ClockState) (pre : List Int),
      s.clock.length = wss → s.useBit.length = wss → (∀ x ∈ s.clock, x ≠ -1 → x ∈ pre) →
      (ds.foldl (ClockStep wss) s).clock.length = wss ∧
        (ds.foldl (ClockStep wss) s).useBit.length = wss ∧
        ∀ x ∈ (ds.foldl (ClockStep wss) s).clock, x ≠ -1 → x ∈ pre ++ ds := by
  intro ds
  induction ds with
  | nil => intro s pre hl hu hm; simpa using ⟨hl, hu, hm⟩
  | cons d ds ih =>
    intro s pre hl hu hm
    obtain ⟨h1, h2, h3⟩ := ClockScan_inv wss d pre wss s hl hu
      (fun x hx hne => List.mem_append_left _ (hm x hx hne))
    have := ih (ClockStep wss s d) (pre ++ [d]) h1 h2 h3
    simpa using this

theorem ClockRun_inv (wss : Nat) (data : List Int) :
    (ClockRun wss data).clock.length = wss ∧ (ClockRun wss data).useBit.length = wss ∧
      ∀ x ∈ (ClockRun wss data).clock, x ≠ -1 → x ∈ data := by
  have h := ClockFold_inv wss data (ClockInit wss) [] (by simp [ClockInit])
    (by simp [ClockInit])
    (by
      intro x hx hne
      simp only [ClockInit, List.mem_replicate] at hx
      exact absurd hx.2 hne)
  simpa [ClockRun] using h

theorem ClockRun_pageFault_mono (wss : Nat) (data : List Int) (j : Nat) :
    (ClockRun wss (data.take j)).pageFault ≤ (ClockRun wss (data.take (j + 1))).pageFault := by
  by_cases hj : j < data.length
  · rw [take_succ_snoc data j hj]
    unfold ClockRun
    rw [List.foldl_append]
    exact (ClockStep_pageFault wss _ _).1
  · rw [List.take_of_length_le (by omega), List.take_of_length_le (by omega)]

/-! ## The fills of the three simulators -/

theorem FIFOinit_eq_warm (wss : Nat) : FIFOinit wss = FIFOwarm wss [] := by
  simp [FIFOinit, FIFOwarm]

theorem FIFOstep_warm (wss : Nat) (pre : List Int) (d : Int) (h : pre.length < wss) :
    FIFOstep wss (FIFOwarm wss pre) d = FIFOwarm wss (pre ++ [d]) := by
  have hk : pre.length % wss = pre.length := Nat.mod_eq_of_lt h
  have hrep : List.replicate (wss - pre.length) (-1 : Int) =
      -1 :: List.replicate (wss - (pre.length + 1)) (-1) := by
    have : wss - pre.length = (wss - (pre.length + 1)) + 1 := by omega
    rw [this, List.replicate_succ]
  have hempty : readAt (FIFOwarm wss pre).fifoArray (FIFOwarm wss pre).pointer = -1 := by
    simp only [FIFOwarm, hk, readAt, List.getD_eq_getElem?_getD]
    rw [List.getElem?_append_right (le_refl _), hrep]
    simp
  unfold FIFOstep
  rw [if_pos hempty]
  simp only [FIFOwarm, hk, List.length_append, List.length_singleton]
  rw [hrep]
  simp [List.set_append]

theorem FIFOfold_warm (wss : Nat) :
    ∀ (ds pre : List Int), pre.length + ds.length ≤ wss →
      ds.foldl (FIFOstep wss) (FIFOwarm wss pre) = FIFOwarm wss (pre ++ ds) := by
  intro ds
  induction ds with
  | nil => intro pre _; simp
  | cons d ds ih =>
    intro pre h
    simp only [List.length_cons] at h
    rw [List.foldl_cons, FIFOstep_warm wss pre d (by omega),
      ih (pre ++ [d]) (by simp; omega)]
    simp

theorem LRUafter_fill (past : Nat → Int) (wss : Nat) (data : List Int) (k : Nat)
    (hk : k ≤ wss) : LRUafter past wss data k = LRUwarm wss (data.take k) := by
  unfold LRUafter
  rw [LRUinit_eq_warm, LRUloop_warm wss past _ [] 0 (by simp; omega)]
  simp

theorem FIFOrun_fill (wss : Nat) (data : List Int) (k : Nat) (hk : k ≤ wss) :
    FIFOrun wss (data.take k) = FIFOwarm wss (data.take k) := by
  unfold FIFOrun
  rw [FIFOinit_eq_warm, FIFOfold_warm wss _ [] (by simp; omega)]
  simp

theorem ClockRun_fill (wss : Nat) (data : List Int) (k : Nat) (hk : k ≤ wss) :
    ClockRun wss (data.take k) = ClockWarm wss (data.take k) := by
  unfold ClockRun
  rw [ClockInit_eq_warm, ClockFold_warm wss _ [] (by simp; omega)]
  simp

theorem LRU_le_after_fills (past : Nat → Int) (wss : Nat) (data : List Int) :
    LRU past wss data ≤ data.length - wss := by
  have h1 : LRUloop wss past 0 data (LRUinit wss) =
      LRUloop wss past (0 + (data.take wss).length) (data.drop wss)
        (LRUafter past wss data wss) := by
    conv_lhs => rw [← List.take_append_drop wss data]
    rw [LRUloop_append]
    rfl
  have h2 := (LRUloop_pageFault wss past (data.drop wss) (0 + (data.take wss).length)
    (LRUafter past wss data wss)).2
  have h3 : (LRUafter past wss data wss).pageFault = 0 := by
    rw [LRUafter_fill past wss data wss (le_refl _)]
    rfl
  unfold LRU
  rw [h1]
  rw [h3, List.length_drop] at h2
  omega

theorem FIFO_le_after_fills (wss : Nat) (data : List Int) :
    FIFO wss data ≤ data.length - wss := by
  have h1 : FIFOrun wss data =
      (data.drop wss).foldl (FIFOstep wss) (FIFOrun wss (data.take wss)) := by
    unfold FIFOrun
    rw [← List.foldl_append, List.take_append_drop]
  have h2 := (FIFOfold_pageFault wss (data.drop wss) (FIFOrun wss (data.take wss))).2
  have h3 : (FIFOrun wss (data.take wss)).pageFault = 0 := by
    rw [FIFOrun_fill wss data wss (le_refl _)]
    rfl
  unfold FIFO
  rw [h1]
  rw [h3, List.length_drop] at h2
  omega

theorem Clock_le_after_fills (wss : Nat) (data : List Int) :
    Clock wss data ≤ data.length - wss := by
  have h1 : ClockRun wss data =
      (data.drop wss).foldl (ClockStep wss) (ClockRun wss (data.take wss)) := by
    unfold ClockRun
    rw [← List.foldl_append, List.take_append_drop]
  have h2 := (ClockFold_pageFault wss (data.drop wss) (ClockRun wss (data.take wss))).2
  have h3 : (ClockRun wss (data.take wss)).pageFault = 0 := by
    rw [ClockRun_fill wss data wss (le_refl _)]
    rfl
  unfold Clock
  rw [h1]
  rw [h3, List.length_drop] at h2
  omega

/-! ## `LRU` and the textbook LRU cache -/

theorem reverse_erase_reverse_of_nodup (T : List Int) (d : Int) (h : T.Nodup) :
    (T.reverse.erase d).reverse = T.erase d := by
  rw [List.Nodup.erase_eq_filter (List.nodup_reverse.2 h), List.Nodup.erase_eq_filter h,
    List.filter_reverse, List.reverse_reverse]

theorem textbookLRUmisses_cold (capacity : Nat) :
    ∀ (ds cache rest : List Int), (cache ++ ds).Nodup → cache.length + ds.length ≤ capacity →
      textbookLRUmisses capacity cache (ds ++ rest) =
        ds.length + textbookLRUmisses capacity (cache ++ ds) rest := by
  intro ds
  induction ds with
  | nil => intro cache rest _ _; simp
  | cons d ds ih =>
    intro cache rest hnd hlen
    simp only [List.length_cons] at hlen
    have hd : d ∉ cache := by
      intro hmem
      have := List.nodup_append.1 hnd
      exact this.2.2 hmem (List.mem_cons_self _ _)
    have hstep : textbookLRUstep capacity cache d = (cache ++ [d], 1) := by
      unfold textbookLRUstep
      rw [if_neg hd, if_pos (by omega)]
    have hnd2 : ((cache ++ [d]) ++ ds).Nodup := by simpa using hnd
    have := ih (cache ++ [d]) rest hnd2 (by simp; omega)
    show (textbookLRUstep capacity cache d).2 +
        textbookLRUmisses capacity (textbookLRUstep capacity cache d).1 (ds ++ rest) = _
    rw [hstep, this]
    simp only [List.length_cons, List.append_assoc, List.singleton_append]
    omega

theorem textbookLRUmisses_full (capacity : Nat) (hc : 1 ≤ capacity) :
    ∀ (rest T : List Int), T.Nodup → T.length = capacity →
      textbookLRUmisses capacity T rest = lruFaults T rest := by
  intro rest
  induction rest with
  | nil => intro T _ _; rfl
  | cons d ds ih =>
    intro T hnd hlen
    by_cases hd : d ∈ T
    · have hstep : textbookLRUstep capacity T d = (lruNext T d, 0) := by
        unfold textbookLRUstep lruNext
        rw [if_pos hd, if_pos hd, reverse_erase_reverse_of_nodup T d hnd]
      have hnext : lruNext T d = T.erase d ++ [d] := by
        unfold lruNext
        rw [if_pos hd, reverse_erase_reverse_of_nodup T d hnd]
      have hnd2 : (lruNext T d).Nodup := by
        rw [hnext]
        refine List.nodup_append.2 ⟨hnd.erase d, List.nodup_singleton d, ?_⟩
        intro x hx hx2
        rw [List.mem_singleton] at hx2
        subst hx2
        exact (List.Nodup.mem_erase_iff hnd).1 hx |>.1 rfl
      have hlen2 : (lruNext T d).length = capacity := by
        rw [hnext, List.length_append, List.length_erase_of_mem hd, List.length_singleton]
        omega
      show (textbookLRUstep capacity T d).2 +
          textbookLRUmisses capacity (textbookLRUstep capacity T d).1 ds =
        (if d ∈ T then 0 else 1) + lruFaults (lruNext T d) ds
      rw [hstep, if_pos hd, ih _ hnd2 hlen2]
    · have hstep : textbookLRUstep capacity T d = (lruNext T d, 1) := by
        unfold textbookLRUstep lruNext
        rw [if_neg hd, if_neg hd, if_neg (by omega)]
      have hnext : lruNext T d = T.tail ++ [d] := by
        unfold lruNext
        rw [if_neg hd]
      have hnd2 : (lruNext T d).Nodup := by
        rw [hnext]
        refine List.nodup_append.2 ⟨hnd.tail, List.nodup_singleton d, ?_⟩
        intro x hx hx2
        rw [List.mem_singleton] at hx2
        subst hx2
        exact hd (List.mem_of_mem_tail hx)
      have hlen2 : (lruNext T d).length = capacity := by
        rw [hnext, length_tail_snoc T d (by omega)]
        exact hlen
      show (textbookLRUstep capacity T d).2 +
          textbookLRUmisses capacity (textbookLRUstep capacity T d).1 ds =
        (if d ∈ T then 0 else 1) + lruFaults (lruNext T d) ds
      rw [hstep, if_neg hd, ih _ hnd2 hlen2]

/-- Misses of the textbook cache on a trace whose first `wss` references
are pairwise distinct. -/
theorem textbookLRU_eq (wss : Nat) (data : List Int) (hw : 1 ≤ wss)
    (hlen : wss ≤ data.length) (hnd : (data.take wss).Nodup) :
    textbookLRU wss data = wss + lruFaults (data.take wss) (data.drop wss) := by
  have hT : (data.take wss).length = wss := by simp [hlen]
  unfold textbookLRU
  conv_lhs => rw [← List.take_append_drop wss data]
  rw [textbookLRUmisses_cold wss (data.take wss) [] (data.drop wss) (by simpa using hnd)
    (by simp), hT, List.nil_append, textbookLRUmisses_full wss hw _ _ hnd hT]

/-! ## The result arrays of `main` -/

theorem readNat_set (l : List Nat) (a i v : Nat) :
    readNat (l.set a v) i = if a = i ∧ a < l.length then v else readNat l i := by
  simp only [readNat, List.getD_eq_getElem?_getD, List.getElem?_set]
  by_cases h1 : a = i
  · subst h1
    by_cases h2 : a < l.length
    · simp [h2]
    · simp [h2, List.getElem?_eq_none (Nat.le_of_not_lt h2)]
  · simp [h1]

theorem accFold_range' (c : Nat → Nat) :
    ∀ (k a : Nat) (l : List Nat),
      ((List.range' a k).foldl (fun l w => l.set w (readNat l w + c w)) l).length = l.length ∧
        ∀ i, readNat ((List.range' a k).foldl (fun l w => l.set w (readNat l w + c w)) l) i =
          if a ≤ i ∧ i < a + k ∧ i < l.length then readNat l i + c i else readNat l i := by
  intro k
  induction k with
  | zero =>
    intro a l
    refine ⟨rfl, fun i => ?_⟩
    have : ¬ (a ≤ i ∧ i < a + 0 ∧ i < l.length) := by omega
    rw [if_neg this]
    rfl
  | succ k ih =>
    intro a l
    rw [List.range'_succ, List.foldl_cons]
    obtain ⟨h1, h2⟩ := ih (a + 1) (l.set a (readNat l a + c a))
    refine ⟨by rw [h1, List.length_set], fun i => ?_⟩
    rw [h2 i, List.length_set, readNat_set]
    by_cases h3 : a = i
    · subst h3
      have h4 : ¬ (a + 1 ≤ a ∧ a < a + 1 + k ∧ a < l.length) := by omega
      rw [if_neg h4]
      by_cases h5 : a < l.length
      · rw [if_pos ⟨rfl, h5⟩, if_pos ⟨le_refl _, by omega, h5⟩]
      · rw [if_neg (fun h => h5 h.2), if_neg (fun h => h5 h.2.2)]
    · have h6 : ¬ (a = i ∧ a < l.length) := fun h => h3 h.1
      rw [if_neg h6]
      by_cases h7 : a + 1 ≤ i ∧ i < a + 1 + k ∧ i < l.length
      · rw [if_pos h7, if_pos (by omega)]
      · rw [if_neg h7, if_neg (by omega)]

theorem accOne_spec (c : Nat → Nat) (a : List Nat) (ha : a.length = 21) :
    (accOne c a).length = 21 ∧
      ∀ w, 4 ≤ w → w ≤ 20 → readNat (accOne c a) w = readNat a w + c w := by
  obtain ⟨h1, h2⟩ := accFold_range' c 17 4 a
  unfold accOne wssValues
  refine ⟨by rw [h1, ha], fun w hw4 hw20 => ?_⟩
  rw [h2 w, if_pos (by omega)]

theorem expOne_spec (c : Nat → List Int → Nat → Nat) :
    ∀ (traces : List (List Int)) (i : Nat) (a : List Nat), a.length = 21 →
      (expOne c i traces a).length = 21 ∧
        ∀ w, 4 ≤ w → w ≤ 20 →
          readNat (expOne c i traces a) w = readNat a w + totalOf c w i traces := by
  intro traces
  induction traces with
  | nil => intro i a ha; exact ⟨ha, fun w _ _ => rfl⟩
  | cons data rest ih =>
    intro i a ha
    obtain ⟨h1, h2⟩ := accOne_spec (c i data) a ha
    obtain ⟨h3, h4⟩ := ih (i + 1) (accOne (c i data) a) h1
    refine ⟨h3, fun w hw4 hw20 => ?_⟩
    show readNat (expOne c (i + 1) rest (accOne (c i data) a)) w =
      readNat a w + (c i data w + totalOf c w (i + 1) rest)
    rw [h4 w hw4 hw20, h2 w hw4 hw20]
    omega

theorem accumulate_fold (past : Nat → Nat → Int) (data : List Int) :
    ∀ (ws : List Nat) (r : Results),
      ws.foldl (accumulateStep past data) r =
        { LRUResults :=
            ws.foldl (fun l wss => l.set wss (readNat l wss + LRU (past wss) wss data))
              r.LRUResults,
          FIFOResults :=
            ws.foldl (fun l wss => l.set wss (readNat l wss + FIFO wss data)) r.FIFOResults,
          ClockResults :=
            ws.foldl (fun l wss => l.set wss (readNat l wss + Clock wss data))
              r.ClockResults } := by
  intro ws
  induction ws with
  | nil => intro r; rfl
  | cons w ws ih => intro r; rw [List.foldl_cons, ih]; rfl

theorem accumulate_fields (past : Nat → Nat → Int) (data : List Int) (r : Results) :
    accumulate past data r =
      { LRUResults := accOne (fun wss => LRU (past wss) wss data) r.LRUResults,
        FIFOResults := accOne (fun wss => FIFO wss data) r.FIFOResults,
        ClockResults := accOne (fun wss => Clock wss data) r.ClockResults } := by
  unfold accumulate accOne
  exact accumulate_fold past data wssValues r

theorem experiments_fields (past : Nat → Nat → Nat → Int) :
    ∀ (traces : List (List Int)) (i : Nat) (r : Results),
      experiments past i traces r =
        { LRUResults :=
            expOne (fun i data wss => LRU (past i wss) wss data) i traces r.LRUResults,
          FIFOResults := expOne (fun _ data wss => FIFO wss data) i traces r.FIFOResults,
          ClockResults := expOne (fun _ data wss => Clock wss data) i traces r.ClockResults } := by
  intro traces
  induction traces with
  | nil => intro i r; rfl
  | cons data rest ih =>
    intro i r
    simp only [experiments, expOne]
    rw [ih, accumulate_fields]

theorem totalOf_map (g : Nat → List Int → Nat) (w : Nat) :
    ∀ (traces : List (List Int)) (i : Nat),
      totalOf (fun _ data wss => g wss data) w i traces = (traces.map (g w)).sum := by
  intro traces
  induction traces with
  | nil => intro i; rfl
  | cons data rest ih =>
    intro i
    show g w data + totalOf (fun _ data wss => g wss data) w (i + 1) rest = _
    rw [ih, List.map_cons, List.sum_cons]

theorem totalOf_enum (c : Nat → List Int → Nat → Nat) (w : Nat) :
    ∀ (traces : List (List Int)) (i : Nat),
      totalOf c w i traces = ((traces.enumFrom i).map (fun p => c p.1 p.2 w)).sum := by
  intro traces
  induction traces with
  | nil => intro i; rfl
  | cons data rest ih =>
    intro i
    show c i data w + totalOf c w (i + 1) rest = _
    rw [ih, List.enumFrom_cons, List.map_cons, List.sum_cons]

theorem totalOf_le (c : Nat → List Int → Nat → Nat) (w B : Nat) :
    ∀ (traces : List (List Int)) (i : Nat), (∀ t ∈ traces, ∀ k, c k t w ≤ B) →
      totalOf c w i traces ≤ B * traces.length := by
  intro traces
  induction traces with
  | nil => intro i _; simp [totalOf]
  | cons data rest ih =>
    intro i h
    have h1 := h data (List.mem_cons_self _ _) i
    have h2 := ih (i + 1) (fun t ht k => h t (List.mem_cons_of_mem _ ht) k)
    show c i data w + totalOf c w (i + 1) rest ≤ B * (rest.length + 1)
    rw [Nat.mul_succ]
    omega

theorem mem_wssValues (w : Nat) : w ∈ wssValues ↔ 4 ≤ w ∧ w ≤ 20 := by
  unfold wssValues
  rw [List.mem_range'_1]
  omega

theorem readNat_replicate_zero (n w : Nat) : readNat (List.replicate n 0) w = 0 := by
  simp only [readNat, List.getD_eq_getElem?_getD, List.getElem?_replicate]
  split_ifs <;> rfl

/-- The totals held by the three arrays after the trials `traces`. -/
theorem experiments_totals (past : Nat → Nat → Nat → Int) (traces : List (List Int))
    (w : Nat) (hw4 : 4 ≤ w) (hw20 : w ≤ 20) :
    readNat (experiments past 0 traces ResultsInit).LRUResults w =
        totalOf (fun i data wss => LRU (past i wss) wss data) w 0 traces ∧
      readNat (experiments past 0 traces ResultsInit).FIFOResults w =
        totalOf (fun _ data wss => FIFO wss data) w 0 traces ∧
      readNat (experiments past 0 traces ResultsInit).ClockResults w =
        totalOf (fun _ data wss => Clock wss data) w 0 traces := by
  rw [experiments_fields]
  have h1 := (expOne_spec (fun i data wss => LRU (past i wss) wss data) traces 0
    (List.replicate 21 0) (by simp)).2 w hw4 hw20
  have h2 := (expOne_spec (fun _ data wss => FIFO wss data) traces 0
    (List.replicate 21 0) (by simp)).2 w hw4 hw20
  have h3 := (expOne_spec (fun _ data wss => Clock wss data) traces 0
    (List.replicate 21 0) (by simp)).2 w hw4 hw20
  rw [readNat_replicate_zero, Nat.zero_add] at h1 h2 h3
  exact ⟨h1, h2, h3⟩

/-! ## What `LRU` does while the word behind the table is not `-1` -/

/-- On a trace whose first reference is not `-1`, and as long as the
emptiness test does not read `-1` behind the table, every reference of index
`j ≥ wss` takes the search branch: the search covers all `wss` frames and
the fault counter grows by one exactly when no frame holds the page. -/
theorem LRUafter_search_and_count (past : Nat → Int) (wss : Nat) (data : List Int) (j : Nat)
    (hw : 1 ≤ wss) (hfirst : data.head? ≠ some (-1)) (hpast : ∀ i, past i ≠ -1)
    (hj : wss ≤ j) (hjl : j < data.length) :
    LRUafter past wss data (j + 1) =
        LRUstep wss (past j) (LRUafter past wss data j) (readAt data j) ∧
      ((LRUscan wss (LRUafter past wss data j).lru (readAt data j)
          (LRUafter past wss data j).indexFound).1 = true ↔
        ∃ q, q < wss ∧ readAt (LRUafter past wss data j).lru q = readAt data j) ∧
      (LRUafter past wss data (j + 1)).pointer = wss ∧
      ((∀ q, q < wss → readAt (LRUafter past wss data j).lru q ≠ readAt data j) →
        (LRUafter past wss data (j + 1)).pageFault =
          (LRUafter past wss data j).pageFault + 1) ∧
      ((∃ q, q < wss ∧ readAt (LRUafter past wss data j).lru q = readAt data j) →
        (LRUafter past wss data (j + 1)).pageFault =
          (LRUafter past wss data j).pageFault) := by
  obtain ⟨hl, ht, hs⟩ := LRUafter_searching past wss data hw hfirst hpast j hj (by omega)
  have hp := LRUprobe_ne wss (past j) _ hs (hpast j)
  have hstep := LRUafter_succ past wss data j hjl
  rw [hstep]
  exact ⟨rfl, LRUstep_count wss (past j) _ (readAt data j) hw hl ht hp⟩

/-- Under the same two conditions, the table after a reference `d` of index
`j ≥ wss` is the old one without its last slot holding `d` (a hit) or
without its front slot (a miss), followed by `d`. -/
theorem LRUafter_new_table (past : Nat → Int) (wss : Nat) (data : List Int) (j : Nat)
    (hw : 1 ≤ wss) (hfirst : data.head? ≠ some (-1)) (hpast : ∀ i, past i ≠ -1)
    (hj : wss ≤ j) (hjl : j < data.length) :
    (readAt data j ∈ (LRUafter past wss data j).lru →
        ∃ i, i < wss ∧ readAt (LRUafter past wss data j).lru i = readAt data j ∧
          (∀ q, i < q → q < wss → readAt (LRUafter past wss data j).lru q ≠ readAt data j) ∧
          (LRUafter past wss data (j + 1)).lru =
            (LRUafter past wss data j).lru.eraseIdx i ++ [readAt data j] ∧
          List.Perm (LRUafter past wss data (j + 1)).lru (LRUafter past wss data j).lru ∧
          (LRUafter past wss data (j + 1)).pageFault =
            (LRUafter past wss data j).pageFault) ∧
      (readAt data j ∉ (LRUafter past wss data j).lru →
        (LRUafter past wss data (j + 1)).lru =
            (LRUafter past wss data j).lru.eraseIdx 0 ++ [readAt data j] ∧
          (LRUafter past wss data (j + 1)).pageFault =
            (LRUafter past wss data j).pageFault + 1) := by
  obtain ⟨hl, ht, hs⟩ := LRUafter_searching past wss data hw hfirst hpast j hj (by omega)
  have hp := LRUprobe_ne wss (past j) _ hs (hpast j)
  have hstep := LRUafter_succ past wss data j hjl
  rw [hstep]
  exact LRUstep_table wss (past j) _ (readAt data j) hw hl ht hp

/-- Under the same two conditions and with the first `wss` references
pairwise distinct, `LRU` plus `wss` is the number of misses of the textbook
cache. -/
theorem LRU_add_wss_eq_textbookLRU (past : Nat → Int) (wss : Nat) (data : List Int)
    (hw : 1 ≤ wss) (hlen : wss ≤ data.length) (hfirst : data.head? ≠ some (-1))
    (hnd : (data.take wss).Nodup) (hpast : ∀ i, past i ≠ -1) :
    LRU past wss data + wss = textbookLRU wss data := by
  rw [LRU_eq_lruFaults past wss data hw hfirst hpast, textbookLRU_eq wss data hw hlen hnd]
  omega

/-! ## C1: bounds on the returned fault counts -/

/-- C1: for every trace, every working-set size `wss ≥ 1` and whatever the
emptiness test of `LRU` reads behind its table, each of `LRU`, `FIFO` and
`Clock` returns a fault count between 0 and the length of the trace; for a
trace of 1000 references the count is at most 1000. -/
theorem C1_fault_count_bounds (past : Nat → Int) (wss : Nat) (data : List Int)
    (_hwss : 1 ≤ wss) :
    (0 ≤ LRU past wss data ∧ LRU past wss data ≤ data.length) ∧
      (0 ≤ FIFO wss data ∧ FIFO wss data ≤ data.length) ∧
      (0 ≤ Clock wss data ∧ Clock wss data ≤ data.length) ∧
      (data.length = 1000 →
        LRU past wss data ≤ 1000 ∧ FIFO wss data ≤ 1000 ∧ Clock wss data ≤ 1000) := by
  have hL : LRU past wss data ≤ data.length := by
    have h := (LRUloop_pageFault wss past data 0 (LRUinit wss)).2
    simpa [LRU, LRUinit] using h
  have hF : FIFO wss data ≤ data.length := by
    have h := (FIFOfold_pageFault wss data (FIFOinit wss)).2
    simpa [FIFO, FIFOrun, FIFOinit] using h
  have hC : Clock wss data ≤ data.length := by
    have h := (ClockFold_pageFault wss data (ClockInit wss)).2
    simpa [Clock, ClockRun, ClockInit] using h
  refine ⟨⟨Nat.zero_le _, hL⟩, ⟨Nat.zero_le _, hF⟩, ⟨Nat.zero_le _, hC⟩, ?_⟩
  intro h1000
  rw [h1000] at hL hF hC
  exact ⟨hL, hF, hC⟩

/-- Witness of C1 at `wss = 2` and the trace `[1, 2, 3, 1]`. -/
theorem C1_fault_count_bounds_witness :
    (1 ≤ 2) ∧
      ((0 ≤ LRU (fun _ => 0) 2 [1, 2, 3, 1] ∧ LRU (fun _ => 0) 2 [1, 2, 3, 1] ≤ [1, 2, 3, (1 : Int)].length) ∧
        (0 ≤ FIFO 2 [1, 2, 3, 1] ∧ FIFO 2 [1, 2, 3, 1] ≤ [1, 2, 3, (1 : Int)].length) ∧
        (0 ≤ Clock 2 [1, 2, 3, 1] ∧ Clock 2 [1, 2, 3, 1] ≤ [1, 2, 3, (1 : Int)].length) ∧
        ([1, 2, 3, (1 : Int)].length = 1000 →
          LRU (fun _ => 0) 2 [1, 2, 3, 1] ≤ 1000 ∧ FIFO 2 [1, 2, 3, 1] ≤ 1000 ∧
            Clock 2 [1, 2, 3, 1] ≤ 1000)) :=
  ⟨by decide, C1_fault_count_bounds (fun _ => 0) 2 [1, 2, 3, 1] (by decide)⟩

/-! ## C2: search and fault counting of `LRU` after the fills -/

/-- C2 fails on the code: with `wss = 4` on a trace beginning 1, 2, 3, 4, 5,
6, when the word behind the table reads `-1`.  After five references the
table is `[2, 3, 4, 5]`, no frame is empty and the cursor is 4; page 6 is in
no frame.  The emptiness test for the reference 6 reads that word instead
of a frame and takes the fill branch: no search is made (the cursor becomes
1, a search would leave it at 4) and the fault counter is not incremented. -/
theorem C2_LRU_reference_not_searched :
    (LRUafter pastEmpty 4 [1, 2, 3, 4, 5, 6] 5).lru = [2, 3, 4, 5] ∧
      (LRUafter pastEmpty 4 [1, 2, 3, 4, 5, 6] 5).pointer = 4 ∧
      (∀ q, q < 4 → readAt (LRUafter pastEmpty 4 [1, 2, 3, 4, 5, 6] 5).lru q ≠ -1) ∧
      (∀ q, q < 4 → readAt (LRUafter pastEmpty 4 [1, 2, 3, 4, 5, 6] 5).lru q ≠ 6) ∧
      (LRUafter pastEmpty 4 [1, 2, 3, 4, 5, 6] 6).pointer = 1 ∧
      (LRUafter pastEmpty 4 [1, 2, 3, 4, 5, 6] 6).pageFault =
        (LRUafter pastEmpty 4 [1, 2, 3, 4, 5, 6] 5).pageFault := by
  decide

/-! ## C3: one step of `FIFO` -/

/-- C3: one step of `FIFO`, for every table, cursor and reference `d`.  If
the slot under the cursor is empty, `d` is stored there, the cursor becomes
`(cursor + 1) % wss` and the fault count is unchanged.  If the slot holds a
page other than `d`, it is overwritten with `d`, the cursor advances and the
fault count grows by one, whatever the other slots hold.  If the slot holds
`d`, the state is unchanged. -/
theorem C3_FIFO_step (wss : Nat) (s : FIFOState) (d : Int) :
    (readAt s.fifoArray s.pointer = -1 →
        FIFOstep wss s d =
          { fifoArray := s.fifoArray.set s.pointer d, pointer := (s.pointer + 1) % wss,
            pageFault := s.pageFault }) ∧
      (readAt s.fifoArray s.pointer ≠ -1 → readAt s.fifoArray s.pointer ≠ d →
        FIFOstep wss s d =
          { fifoArray := s.fifoArray.set s.pointer d, pointer := (s.pointer + 1) % wss,
            pageFault := s.pageFault + 1 }) ∧
      (readAt s.fifoArray s.pointer ≠ -1 → readAt s.fifoArray s.pointer = d →
        FIFOstep wss s d = s) := by
  refine ⟨fun h => ?_, fun h1 h2 => ?_, fun h1 h2 => ?_⟩
  · unfold FIFOstep; rw [if_pos h]
  · unfold FIFOstep; rw [if_neg h1, if_pos h2]
  · unfold FIFOstep; rw [if_neg h1, if_neg (not_not.2 h2)]

/-- Witness of C3: the table `[1, 2]` with the cursor on slot 0 and the
reference 2, resident in slot 1, is charged a fault and overwrites slot 0. -/
theorem C3_FIFO_step_witness :
    FIFOstep 2 fifoExample 2 = { fifoArray := [2, 2], pointer := 1, pageFault := 1 } :=
  (C3_FIFO_step 2 fifoExample 2).2.1 (by decide) (by decide)

/-! ## C4: one slot inspection of `Clock` -/

theorem ClockScan_count (wss : Nat) (d : Int) :
    ∀ (n : Nat) (s : ClockState), (ClockScan wss d n s).2 ≤ n := by
  intro n
  induction n with
  | zero => intro s; simp [ClockScan]
  | succ n ih =>
    intro s
    have h := ih (ClockInspect wss s d).1
    simp only [ClockScan]
    split_ifs
    · simp
    · simp only; omega

/-- C4: one slot inspection of `Clock`, for every table, use-bit array,
cursor and reference `d`.  An empty slot gets `d` and use bit 1, the cursor
advances mod `wss` and the scan stops without a fault.  A slot holding `d`
gets use bit 1 and the scan stops, cursor and fault count unchanged.  A slot
holding another page with use bit 1 has the bit cleared, the cursor advances
and the scan goes on.  A slot holding another page with use bit 0 is
overwritten with `d`, gets use bit 1, the cursor advances, the fault count
grows by one and the scan stops.  The scan for one reference inspects at
most `wss` slots. -/
theorem C4_Clock_inspect (wss : Nat) (s : ClockState) (d : Int) :
    (readAt s.clock s.pointer = -1 →
        ClockInspect wss s d =
          ({ clock := s.clock.set s.pointer d, useBit := s.useBit.set s.pointer 1,
             pointer := (s.pointer + 1) % wss, pageFault := s.pageFault }, true)) ∧
      (readAt s.clock s.pointer ≠ -1 → readAt s.clock s.pointer = d →
        ClockInspect wss s d =
          ({ clock := s.clock, useBit := s.useBit.set s.pointer 1,
             pointer := s.pointer, pageFault := s.pageFault }, true)) ∧
      (readAt s.clock s.pointer ≠ -1 → readAt s.clock s.pointer ≠ d →
        readAt s.useBit s.pointer = 1 →
        ClockInspect wss s d =
          ({ clock := s.clock, useBit := s.useBit.set s.pointer 0,
             pointer := (s.pointer + 1) % wss, pageFault := s.pageFault }, false)) ∧
      (readAt s.clock s.pointer ≠ -1 → readAt s.clock s.pointer ≠ d →
        readAt s.useBit s.pointer = 0 →
        ClockInspect wss s d =
          ({ clock := s.clock.set s.pointer d, useBit := s.useBit.set s.pointer 1,
             pointer := (s.pointer + 1) % wss, pageFault := s.pageFault + 1 }, true)) ∧
      (ClockScan wss d wss s).2 ≤ wss := by
  refine ⟨fun h => ?_, fun h1 h2 => ?_, fun h1 h2 h3 => ?_, fun h1 h2 h3 => ?_,
    ClockScan_count wss d wss s⟩
  · unfold ClockInspect; rw [if_pos h]
  · unfold ClockInspect; rw [if_neg h1, if_pos h2]
  · unfold ClockInspect; rw [if_neg h1, if_neg h2, if_pos h3]
  · have h4 : ¬ readAt s.useBit s.pointer = 1 := by rw [h3]; decide
    unfold ClockInspect; rw [if_neg h1, if_neg h2, if_neg h4]

/-- Witness of C4: the table `[1, 2]` with use bits `[1, 0]`, the cursor on
slot 0 and the reference 3: the use bit of slot 0 is cleared and the scan
goes on. -/
theorem C4_Clock_inspect_witness :
    ClockInspect 2 clockExample 3 =
      ({ clock := [1, 2], useBit := [0, 0], pointer := 1, pageFault := 0 }, false) :=
  (C4_Clock_inspect 2 clockExample 3).2.2.1 (by decide) (by decide) (by decide)

/-! ## C5: a miss of `Clock` on a full table -/

/-- C5 fails on the code: with `wss = 4`, after the references 1, 2, 3, 4
the table is `[1, 2, 3, 4]` (no empty slot, every use bit set); the
reference 5 is in no slot, yet processing it leaves the fault counter at 0
and the table at `[1, 2, 3, 4]`: the four passes of the inner loop only
clear the use bits, and `Clock` returns 0 for the five references. -/
theorem C5_Clock_miss_not_counted :
    (ClockRun 4 [1, 2, 3, 4]).clock = [1, 2, 3, 4] ∧
      (ClockRun 4 [1, 2, 3, 4]).useBit = [1, 1, 1, 1] ∧
      (ClockRun 4 [1, 2, 3, 4]).pageFault = 0 ∧
      (ClockStep 4 (ClockRun 4 [1, 2, 3, 4]) 5).pageFault = 0 ∧
      (ClockStep 4 (ClockRun 4 [1, 2, 3, 4]) 5).clock = [1, 2, 3, 4] ∧
      (ClockStep 4 (ClockRun 4 [1, 2, 3, 4]) 5).useBit = [0, 0, 0, 0] ∧
      Clock 4 [1, 2, 3, 4, 5] = 0 := by
  decide

/-! ## C6: the new table of `LRU` after the fills -/

/-- C6 fails on the code: with `wss = 4` on a trace beginning 1, 2, 3, 4, 5,
6, when the word behind the table reads `-1`.  The reference 6 arrives on
the full table `[2, 3, 4, 5]`, which does not hold it; the new table is
still `[2, 3, 4, 5]`, not the old table without its front entry followed
by 6: the page is stored behind the table and is not resident. -/
theorem C6_LRU_table_not_updated :
    (LRUafter pastEmpty 4 [1, 2, 3, 4, 5, 6] 5).lru = [2, 3, 4, 5] ∧
      (6 : Int) ∉ (LRUafter pastEmpty 4 [1, 2, 3, 4, 5, 6] 5).lru ∧
      (LRUafter pastEmpty 4 [1, 2, 3, 4, 5, 6] 6).lru = [2, 3, 4, 5] ∧
      (LRUafter pastEmpty 4 [1, 2, 3, 4, 5, 6] 6).lru ≠
        (LRUafter pastEmpty 4 [1, 2, 3, 4, 5, 6] 5).lru.eraseIdx 0 ++ [6] ∧
      (6 : Int) ∉ (LRUafter pastEmpty 4 [1, 2, 3, 4, 5, 6] 6).lru := by
  decide

/-! ## C7: the warm-up of `LRU` -/

/-- C7: for every `wss ≥ 1` and every trace with at least `wss` references,
the state of `LRU` after the first `wss` references has the table equal to
those references in trace order (slot `i` holds reference `i`, duplicates
included, no search being made) and a fault count of 0; the rest of the
trace is processed from that state.  This holds whatever is read behind the
table, and also when references equal `-1`. -/
theorem C7_LRU_warmup (past : Nat → Int) (wss : Nat) (data : List Int)
    (_hw : 1 ≤ wss) (hlen : wss ≤ data.length) :
    (LRUafter past wss data wss).lru = data.take wss ∧
      (∀ i, i < wss → readAt (LRUafter past wss data wss).lru i = readAt data i) ∧
      (LRUafter past wss data wss).pageFault = 0 ∧
      LRUloop wss past 0 data (LRUinit wss) =
        LRUloop wss past wss (data.drop wss) (LRUafter past wss data wss) := by
  have hT : (data.take wss).length = wss := by simp [hlen]
  have hrun := LRUafter_wss past wss data hlen
  refine ⟨by rw [hrun], ?_, by rw [hrun], ?_⟩
  · intro i hi
    rw [hrun]
    simp [readAt, List.getD_eq_getElem?_getD, List.getElem?_take, hi]
  · conv_lhs => rw [← List.take_append_drop wss data]
    rw [LRUloop_append, hT, Nat.zero_add]
    rfl

/-- Witness of C7: `wss = 2`, trace `[7, 7, 8]`; the table is `[7, 7]`. -/
theorem C7_LRU_warmup_witness :
    (LRUafter pastZero 2 [7, 7, 8] 2).lru = [7, 7] ∧
      (LRUafter pastZero 2 [7, 7, 8] 2).pageFault = 0 :=
  have h := C7_LRU_warmup pastZero 2 [7, 7, 8] (by decide) (by decide)
  ⟨h.1, h.2.2.1⟩

/-! ## C8: `LRU` and the working-set size -/

/-- C8, as stated, fails: on the trace `[-1, 1, 2, 2, 2, 1, -1, 3, 1]`, whose
references `-1` are taken for empty frames, `LRU` returns 2 with 4 frames
and 3 with 5 frames. -/
theorem C8_LRU_not_monotone_with_sentinel :
    ¬ (LRU pastZero 5 [-1, 1, 2, 2, 2, 1, -1, 3, 1] ≤
        LRU pastZero 4 [-1, 1, 2, 2, 2, 1, -1, 3, 1]) := by
  decide

/-- C8, amended: for every trace whose first reference is not the sentinel
`-1` (in particular every trace without `-1`) and all working-set sizes
`1 ≤ w ≤ w'`, `LRU(w', trace) ≤ LRU(w, trace)`, provided the emptiness tests
of both runs never read `-1` behind the table. -/
theorem C8_LRU_monotone (past past' : Nat → Int) (w w' : Nat) (data : List Int)
    (hw : 1 ≤ w) (hww : w ≤ w') (hfirst : data.head? ≠ some (-1))
    (hpast : ∀ i, past i ≠ -1) (hpast' : ∀ i, past' i ≠ -1) :
    LRU past' w' data ≤ LRU past w data := by
  rw [LRU_eq_lruFaults past w data hw hfirst hpast,
    LRU_eq_lruFaults past' w' data (by omega) hfirst hpast']
  have hsplit : data.drop w = (data.drop w).take (w' - w) ++ data.drop w' := by
    have h1 : data.drop w' = (data.drop w).drop (w' - w) := by
      rw [List.drop_drop]; congr 1; omega
    rw [h1, List.take_append_drop]
  have htake : data.take w' = data.take w ++ (data.drop w).take (w' - w) := by
    have h1 : w' = w + (w' - w) := by omega
    conv_lhs => rw [h1]
    rw [List.take_add]
  rw [hsplit, lruFaults_append, htake]
  have h := lruFaults_mono (data.drop w') _ _
    (lruTable_sublist ((data.drop w).take (w' - w)) (data.take w))
  omega

/-- Witness of C8 amended: the trace `[1, 2, 3, 1, 2, 3]` with 2 and 3 frames. -/
theorem C8_LRU_monotone_witness :
    LRU pastZero 3 [1, 2, 3, 1, 2, 3] ≤ LRU pastZero 2 [1, 2, 3, 1, 2, 3] :=
  C8_LRU_monotone pastZero pastZero 2 3 [1, 2, 3, 1, 2, 3] (by decide) (by decide)
    (by decide) (by intro i; simp [pastZero]) (by intro i; simp [pastZero])

/-! ## C9: `FIFO` and the working-set size -/

/-- C9, as stated, fails: on five references to page 1 followed by five to
page 2, `FIFO` returns 4 with 4 frames and 5 with 5 frames. -/
theorem C9_FIFO_not_monotone :
    ¬ (FIFO 5 [1, 1, 1, 1, 1, 2, 2, 2, 2, 2] ≤ FIFO 4 [1, 1, 1, 1, 1, 2, 2, 2, 2, 2]) := by
  decide

/-- C9, amended: for working-set sizes `1 ≤ w ≤ w'` and every trace without
`-1` in which no page occurs twice among any `w' + 1` consecutive
references, `FIFO(w', trace) ≤ FIFO(w, trace)`; on such a trace every
reference after the fills is charged, so the counts are the trace length
minus `w'` and minus `w`. -/
theorem C9_FIFO_monotone_noRepeat (w w' : Nat) (data : List Int)
    (hw : 1 ≤ w) (hww : w ≤ w') (hdata : ∀ x ∈ data, x ≠ -1)
    (hnr : NoRepeatWithin (w' + 1) data) :
    FIFO w' data ≤ FIFO w data ∧ FIFO w data = data.length - w ∧
      FIFO w' data = data.length - w' := by
  have h1 := (FIFOrun_noRepeat w hw data hdata
    (NoRepeatWithin_mono (w + 1) (w' + 1) data (by omega) hnr)).2.2.2
  have h2 := (FIFOrun_noRepeat w' (by omega) data hdata hnr).2.2.2
  unfold FIFO
  rw [h1, h2]
  exact ⟨by omega, rfl, rfl⟩

/-- Witness of C9 amended: five distinct pages with 2 and 3 frames. -/
theorem C9_FIFO_monotone_noRepeat_witness :
    FIFO 3 [1, 2, 3, 4, 5] ≤ FIFO 2 [1, 2, 3, 4, 5] ∧
      FIFO 2 [1, 2, 3, 4, 5] = [1, 2, 3, 4, (5 : Int)].length - 2 ∧
      FIFO 3 [1, 2, 3, 4, 5] = [1, 2, 3, 4, (5 : Int)].length - 3 :=
  C9_FIFO_monotone_noRepeat 2 3 [1, 2, 3, 4, 5] (by decide) (by decide) (by decide)
    (by decide)

/-! ## C10: `Clock` on traces without repeats in a window -/

/-- C10 fails on the code: the trace `[1, 2, 3, 4, 5, 6, 7, 8]` repeats no
page at all, so no page is referenced again while resident and no window
holds a repeat.  With `wss = 4` the reference 5 finds every use bit set: it
only clears the four bits, is not installed and is not counted.  `Clock`
returns 3, not the trace length minus the 4 fills. -/
theorem C10_Clock_distinct_pages_undercount :
    [1, 2, 3, 4, 5, 6, 7, (8 : Int)].Nodup ∧
      NoRepeatWithin 4 [1, 2, 3, 4, 5, 6, 7, 8] ∧
      (ClockRun 4 [1, 2, 3, 4]).useBit = [1, 1, 1, 1] ∧
      (ClockRun 4 [1, 2, 3, 4, 5]).clock = [1, 2, 3, 4] ∧
      (ClockRun 4 [1, 2, 3, 4, 5]).pageFault = 0 ∧
      Clock 4 [1, 2, 3, 4, 5, 6, 7, 8] = 3 ∧
      Clock 4 [1, 2, 3, 4, 5, 6, 7, 8] ≠ [1, 2, 3, 4, 5, 6, 7, (8 : Int)].length - 4 := by
  decide

/-! ## C11: the `LRU` scenario `wss = 2`, `[1, 2, 1, 3, 1, 2]` -/

/-- C11, as stated, fails: with `wss = 2` on the trace `[1, 2, 1, 3, 1, 2]`
the fifth reference (page 1) finds page 1 in the table `[1, 3]` and is not
charged, and `LRU` returns 2 (here with the word behind the table reading
0); whatever that word reads, `LRU` never returns 4 on this trace. -/
theorem C11_LRU_scenario_not_four :
    (LRUafter pastZero 2 [1, 2, 1, 3, 1, 2] 4).lru = [1, 3] ∧
      (LRUafter pastZero 2 [1, 2, 1, 3, 1, 2] 5).pageFault =
        (LRUafter pastZero 2 [1, 2, 1, 3, 1, 2] 4).pageFault ∧
      LRU pastZero 2 [1, 2, 1, 3, 1, 2] = 2 ∧
      ¬ ∃ past : Nat → Int, LRU past 2 [1, 2, 1, 3, 1, 2] = 4 := by
  refine ⟨by decide, by decide, by decide, ?_⟩
  rintro ⟨past, h⟩
  have h1 : LRUloop 2 past 0 [1, 2, 1, 3, 1, 2] (LRUinit 2) =
      LRUloop 2 past 3 [3, 1, 2] (LRUloop 2 past 0 [1, 2, 1] (LRUinit 2)) :=
    LRUloop_append 2 past [1, 2, 1] [3, 1, 2] 0 (LRUinit 2)
  have h2 : (LRUloop 2 past 0 [1, 2, 1] (LRUinit 2)).pageFault = 0 := by
    have h4 := LRUafter_first_search past 2 [1, 2, 1] (by decide) (by decide)
    have h5 : LRUloop 2 past 0 [1, 2, 1] (LRUinit 2) = LRUafter past 2 [1, 2, 1] (2 + 1) := rfl
    rw [h5, h4]
    decide
  have h3 := (LRUloop_pageFault 2 past [3, 1, 2] 3
    (LRUloop 2 past 0 [1, 2, 1] (LRUinit 2))).2
  unfold LRU at h
  rw [h1] at h
  rw [h2, h] at h3
  simp at h3

/-- C11, amended: `LRU` with `wss = 2` on the trace `[1, 2, 1, 3, 1, 2]`, as
long as the emptiness test does not read `-1` behind the table.  The two
fills of 1 and 2 are not faults (table `[1, 2]`), the third reference (1) is
a hit (table `[2, 1]`), the reference 3 is a fault that evicts 2 (table
`[1, 3]`), the next reference 1 is a hit (table `[3, 1]`), the last
reference 2 is a fault that evicts 3 (table `[1, 2]`), and the returned
fault count is 2. -/
theorem C11_LRU_scenario (past : Nat → Int) (hpast : ∀ i, past i ≠ -1) :
    ((LRUafter past 2 [1, 2, 1, 3, 1, 2] 2).lru = [1, 2] ∧
        (LRUafter past 2 [1, 2, 1, 3, 1, 2] 2).pageFault = 0) ∧
      ((LRUafter past 2 [1, 2, 1, 3, 1, 2] 3).lru = [2, 1] ∧
        (LRUafter past 2 [1, 2, 1, 3, 1, 2] 3).pageFault = 0) ∧
      ((LRUafter past 2 [1, 2, 1, 3, 1, 2] 4).lru = [1, 3] ∧
        (LRUafter past 2 [1, 2, 1, 3, 1, 2] 4).pageFault = 1) ∧
      ((LRUafter past 2 [1, 2, 1, 3, 1, 2] 5).lru = [3, 1] ∧
        (LRUafter past 2 [1, 2, 1, 3, 1, 2] 5).pageFault = 1) ∧
      ((LRUafter past 2 [1, 2, 1, 3, 1, 2] 6).lru = [1, 2] ∧
        (LRUafter past 2 [1, 2, 1, 3, 1, 2] 6).pageFault = 2) ∧
      LRU past 2 [1, 2, 1, 3, 1, 2] = 2 := by
  simp only [LRUafter_pastZero past 2 _ _ hpast, LRU_pastZero past 2 _ hpast]
  decide

/-- Witness of C11 amended: the word behind the table reads 0. -/
theorem C11_LRU_scenario_witness :
    (LRUafter pastZero 2 [1, 2, 1, 3, 1, 2] 6).lru = [1, 2] ∧
      LRU pastZero 2 [1, 2, 1, 3, 1, 2] = 2 :=
  have h := C11_LRU_scenario pastZero (by intro i; simp [pastZero])
  ⟨h.2.2.2.2.1.1, h.2.2.2.2.2⟩

/-! ## C12: the `Clock` scenario `wss = 2`, `[5, 6, 5, 7]` -/

/-- C12 fails on the code: with `wss = 2` on the trace `[5, 6, 5, 7]` the
references 5 and 6 are fills and the second 5 is a hit that leaves the
cursor on slot 0, as claimed; but the reference 7 only clears the two use
bits in the two passes of the inner loop: it is not installed (the table
is still `[5, 6]`) and `Clock` returns 0, not 1. -/
theorem C12_Clock_scenario_returns_zero :
    ClockRun 2 [5, 6] =
        { clock := [5, 6], useBit := [1, 1], pointer := 0, pageFault := 0 } ∧
      ClockRun 2 [5, 6, 5] =
        { clock := [5, 6], useBit := [1, 1], pointer := 0, pageFault := 0 } ∧
      ClockRun 2 [5, 6, 5, 7] =
        { clock := [5, 6], useBit := [0, 0], pointer := 0, pageFault := 0 } ∧
      Clock 2 [5, 6, 5, 7] = 0 := by
  decide

/-! ## C13: indices used on the tables -/

/-- C13 fails on the code: in `LRU` with `wss = 4`, on every trace that
begins 1, 2, 3, 4, 5, after the four fills and the first search the cursor
equals 4 at the head of the next iteration, whatever the word behind the
table holds; the emptiness test `lru[pointer] == -1` then reads `lru[4]`,
which is not a frame of the table: the value it tests is the word behind
the table. -/
theorem C13_LRU_cursor_past_table (past : Nat → Int) (rest : List Int) :
    (LRUafter past 4 (1 :: 2 :: 3 :: 4 :: 5 :: rest) 5).pointer = 4 ∧
      (LRUafter past 4 (1 :: 2 :: 3 :: 4 :: 5 :: rest) 5).lru.length = 4 ∧
      ¬ ((LRUafter past 4 (1 :: 2 :: 3 :: 4 :: 5 :: rest) 5).pointer <
          (LRUafter past 4 (1 :: 2 :: 3 :: 4 :: 5 :: rest) 5).lru.length) ∧
      LRUprobe 4 (past 5) (LRUafter past 4 (1 :: 2 :: 3 :: 4 :: 5 :: rest) 5) = past 5 := by
  have h0 : LRUafter past 4 (1 :: 2 :: 3 :: 4 :: 5 :: rest) 5 =
      LRUafter past 4 [1, 2, 3, 4, 5] 5 := rfl
  have h : LRUafter past 4 [1, 2, 3, 4, 5] 5 =
      { lru := [2, 3, 4, 5], temp := [2, 3, 4, 5], pointer := 4, pageFault := 1,
        indexFound := 0 } := by
    rw [LRUafter_first_search past 4 [1, 2, 3, 4, 5] (by decide) (by decide)]
    decide
  rw [h0, h]
  exact ⟨rfl, rfl, by decide, by simp [LRUprobe]⟩

/-! ## C14: state invariants -/

/-- C14: for each of `LRU` (whatever is read behind its table), `FIFO` and
`Clock`, with `wss ≥ 1`, the state after any number `j` of references of the
trace satisfies: the table has exactly `wss` slots, so the number of
non-empty slots is between 0 and `wss`; every non-empty slot holds a page
that occurs among the first `j` references; and the fault counter after
`j + 1` references is at least the counter after `j`. -/
theorem C14_state_invariants (past : Nat → Int) (wss : Nat) (data : List Int) (j : Nat)
    (hw : 1 ≤ wss) :
    ((LRUafter past wss data j).lru.length = wss ∧
        (0 ≤ residents (LRUafter past wss data j).lru ∧
          residents (LRUafter past wss data j).lru ≤ wss) ∧
        (∀ x ∈ (LRUafter past wss data j).lru, x ≠ -1 → x ∈ data.take j) ∧
        (LRUafter past wss data j).pageFault ≤ (LRUafter past wss data (j + 1)).pageFault) ∧
      ((FIFOrun wss (data.take j)).fifoArray.length = wss ∧
        (0 ≤ residents (FIFOrun wss (data.take j)).fifoArray ∧
          residents (FIFOrun wss (data.take j)).fifoArray ≤ wss) ∧
        (∀ x ∈ (FIFOrun wss (data.take j)).fifoArray, x ≠ -1 → x ∈ data.take j) ∧
        (FIFOrun wss (data.take j)).pageFault ≤
          (FIFOrun wss (data.take (j + 1))).pageFault) ∧
      ((ClockRun wss (data.take j)).clock.length = wss ∧
        (0 ≤ residents (ClockRun wss (data.take j)).clock ∧
          residents (ClockRun wss (data.take j)).clock ≤ wss) ∧
        (∀ x ∈ (ClockRun wss (data.take j)).clock, x ≠ -1 → x ∈ data.take j) ∧
        (ClockRun wss (data.take j)).pageFault ≤
          (ClockRun wss (data.take (j + 1))).pageFault) := by
  obtain ⟨l1, _, l3⟩ := LRUafter_inv past wss data j hw
  obtain ⟨f1, f2⟩ := FIFOrun_inv wss (data.take j)
  obtain ⟨c1, _, c3⟩ := ClockRun_inv wss (data.take j)
  refine ⟨⟨l1, ⟨Nat.zero_le _, ?_⟩, l3, LRUafter_pageFault_mono past wss data j⟩,
    ⟨f1, ⟨Nat.zero_le _, ?_⟩, f2, FIFOrun_pageFault_mono wss data j⟩,
    ⟨c1, ⟨Nat.zero_le _, ?_⟩, c3, ClockRun_pageFault_mono wss data j⟩⟩
  · exact le_of_le_of_eq (residents_le_length _) l1
  · exact le_of_le_of_eq (residents_le_length _) f1
  · exact le_of_le_of_eq (residents_le_length _) c1

/-- Witness of C14: `wss = 2`, trace `[1, 2, 3]`, after one reference. -/
theorem C14_state_invariants_witness :
    (LRUafter pastZero 2 [1, 2, 3] 1).lru.length = 2 ∧
      (FIFOrun 2 ([1, 2, 3].take 1)).fifoArray.length = 2 ∧
      (ClockRun 2 ([1, 2, 3].take 1)).clock.length = 2 ∧
      residents (ClockRun 2 ([1, 2, 3].take 1)).clock ≤ 2 :=
  have h := C14_state_invariants pastZero 2 [1, 2, 3] 1 (by decide)
  ⟨h.1.1, h.2.1.1, h.2.2.1, h.2.2.2.1.2⟩

/-! ## C15: the aggregation of the harness -/

/-- C15: for every sequence of per-trial traces (1000 of them in `main`),
the report has one entry for each `wss` from 4 to 20 and for no other, and
for each policy the reported value is the integer quotient by 1000 of the
sum over the trials of the count returned by that policy for `wss` and the
trace of the trial, the same trace being passed to the three policies and
to every working-set size. -/
theorem C15_harness_aggregation (past : Nat → Nat → Nat → Int) (traces : List (List Int)) :
    main past traces =
        wssValues.map (fun wss =>
          (wss, (traces.enum.map (fun p => LRU (past p.1 wss) wss p.2)).sum / 1000,
            (traces.map (FIFO wss)).sum / 1000, (traces.map (Clock wss)).sum / 1000)) ∧
      wssValues = [4, 5, 6, 7, 8, 9, 10, 11, 12, 13, 14, 15, 16, 17, 18, 19, 20] := by
  refine ⟨?_, by decide⟩
  unfold main report
  apply List.map_congr_left
  intro w hw
  obtain ⟨hw4, hw20⟩ := (mem_wssValues w).1 hw
  obtain ⟨h1, h2, h3⟩ := experiments_totals past traces w hw4 hw20
  rw [h1, h2, h3, totalOf_enum, totalOf_map (fun wss data => FIFO wss data),
    totalOf_map (fun wss data => Clock wss data)]
  rfl

/-! ## C16: a working-set size below 1 -/

/-- C17: for each of `LRU` (whatever is read behind its table), `FIFO` and
`Clock`, every `wss ≥ 1` and every trace with at least `wss` references:
after the first `k ≤ wss` references the table holds these `k` references
in its first `k` slots, the other slots are still empty, the cursor is on
slot `k` (on slot 0 when `k = wss`) and the fault counter is 0, so that each
of the first `wss` references fills an empty slot without a fault; and the
returned fault count is at most the trace length minus `wss`.  This needs
no assumption on the references being different from `-1`. -/
theorem C17_warmup_fills_not_faults (past : Nat → Int) (wss : Nat) (data : List Int)
    (k : Nat) (_hw : 1 ≤ wss) (hlen : wss ≤ data.length) (hk : k ≤ wss) :
    ((LRUafter past wss data k).lru = data.take k ++ List.replicate (wss - k) (-1) ∧
        (LRUafter past wss data k).pointer = k % wss ∧
        (LRUafter past wss data k).pageFault = 0) ∧
      ((FIFOrun wss (data.take k)).fifoArray =
          data.take k ++ List.replicate (wss - k) (-1) ∧
        (FIFOrun wss (data.take k)).pointer = k % wss ∧
        (FIFOrun wss (data.take k)).pageFault = 0) ∧
      ((ClockRun wss (data.take k)).clock =
          data.take k ++ List.replicate (wss - k) (-1) ∧
        (ClockRun wss (data.take k)).pointer = k % wss ∧
        (ClockRun wss (data.take k)).pageFault = 0) ∧
      LRU past wss data ≤ data.length - wss ∧
      FIFO wss data ≤ data.length - wss ∧
      Clock wss data ≤ data.length - wss := by
  have hT : (data.take k).length = k := by simp; omega
  refine ⟨?_, ?_, ?_, LRU_le_after_fills past wss data, FIFO_le_after_fills wss data,
    Clock_le_after_fills wss data⟩
  · rw [LRUafter_fill past wss data k hk]
    simp only [LRUwarm, hT, and_self]
  · rw [FIFOrun_fill wss data k hk]
    simp only [FIFOwarm, hT, and_self]
  · rw [ClockRun_fill wss data k hk]
    simp only [ClockWarm, hT, and_self]

/-- Witness of C17: `wss = 3`, trace `[4, 4, 5, 6]`, after two references. -/
theorem C17_warmup_fills_not_faults_witness :
    (LRUafter pastZero 3 [4, 4, 5, 6] 2).lru = [4, 4, -1] ∧
      (FIFOrun 3 ([4, 4, 5, 6].take 2)).fifoArray = [4, 4, -1] ∧
      (ClockRun 3 ([4, 4, 5, 6].take 2)).clock = [4, 4, -1] ∧
      LRU pastZero 3 [4, 4, 5, 6] ≤ 1 ∧ FIFO 3 [4, 4, 5, 6] ≤ 1 ∧ Clock 3 [4, 4, 5, 6] ≤ 1 :=
  have h := C17_warmup_fills_not_faults pastZero 3 [4, 4, 5, 6] 2 (by decide) (by decide)
    (by decide)
  ⟨h.1.1, h.2.1.1, h.2.2.1.1, h.2.2.2.1, h.2.2.2.2.1, h.2.2.2.2.2⟩

/-! ## C18: `LRU` against a textbook LRU cache -/

/-- C18 fails on the code: with `wss = 4` on the trace `[1, 2, 3, 4, 5, 6]`
(no `-1`, the first four references distinct), when the word behind the
table reads `-1`, `LRU` returns 1: the reference 6 is neither searched nor
counted.  The textbook cache of capacity 4 has 6 misses, and 1 + 4 is not
6. -/
theorem C18_LRU_differs_from_textbook :
    (∀ x ∈ [1, 2, 3, 4, 5, (6 : Int)], x ≠ -1) ∧
      ([1, 2, 3, 4, 5, (6 : Int)].take 4).Nodup ∧
      LRU pastEmpty 4 [1, 2, 3, 4, 5, 6] = 1 ∧
      textbookLRU 4 [1, 2, 3, 4, 5, 6] = 6 ∧
      LRU pastEmpty 4 [1, 2, 3, 4, 5, 6] + 4 ≠ textbookLRU 4 [1, 2, 3, 4, 5, 6] := by
  decide

/-! ## C19: no overflow in the harness -/

/-- C19: for every sequence of 1000 traces of 1000 references, after any
number `n ≤ 1000` of trials every running total `LRUResults[wss]`,
`FIFOResults[wss]` and `ClockResults[wss]` with `wss` in 4..20 is between 0
and 1,000,000, which is below `2 ^ 31`; and every reported average is
between 0 and 1000.  For `LRU` this holds whatever is read behind the
table. -/
theorem C19_harness_no_overflow (past : Nat → Nat → Nat → Int) (traces : List (List Int))
    (n w : Nat) (hlen : traces.length = 1000) (htr : ∀ t ∈ traces, t.length = 1000)
    (hn : n ≤ 1000) (hw4 : 4 ≤ w) (hw20 : w ≤ 20) :
    ((0 ≤ readNat (experiments past 0 (traces.take n) ResultsInit).LRUResults w ∧
          readNat (experiments past 0 (traces.take n) ResultsInit).LRUResults w ≤ 1000000) ∧
        (0 ≤ readNat (experiments past 0 (traces.take n) ResultsInit).FIFOResults w ∧
          readNat (experiments past 0 (traces.take n) ResultsInit).FIFOResults w ≤ 1000000) ∧
        (0 ≤ readNat (experiments past 0 (traces.take n) ResultsInit).ClockResults w ∧
          readNat (experiments past 0 (traces.take n) ResultsInit).ClockResults w ≤
            1000000)) ∧
      1000000 < 2 ^ 31 ∧
      ∀ e ∈ main past traces,
        (0 ≤ e.2.1 ∧ e.2.1 ≤ 1000) ∧ (0 ≤ e.2.2.1 ∧ e.2.2.1 ≤ 1000) ∧
          (0 ≤ e.2.2.2 ∧ e.2.2.2 ≤ 1000) := by
  have hL : ∀ (t : List Int), t ∈ traces → ∀ (k v : Nat), LRU (past k v) v t ≤ 1000 := by
    intro t ht k v
    have h := (LRUloop_pageFault v (past k v) t 0 (LRUinit v)).2
    have h2 := htr t ht
    simp only [LRUinit] at h
    unfold LRU
    simp only [LRUinit]
    omega
  have hF : ∀ (t : List Int), t ∈ traces → ∀ (v : Nat), FIFO v t ≤ 1000 := by
    intro t ht v
    have h := (FIFOfold_pageFault v t (FIFOinit v)).2
    have h2 := htr t ht
    simp only [FIFOinit] at h
    unfold FIFO FIFOrun
    simp only [FIFOinit]
    omega
  have hC : ∀ (t : List Int), t ∈ traces → ∀ (v : Nat), Clock v t ≤ 1000 := by
    intro t ht v
    have h := (ClockFold_pageFault v t (ClockInit v)).2
    have h2 := htr t ht
    simp only [ClockInit] at h
    unfold Clock ClockRun
    simp only [ClockInit]
    omega
  have hbound : ∀ (m v : Nat), m ≤ 1000 → 4 ≤ v → v ≤ 20 →
      readNat (experiments past 0 (traces.take m) ResultsInit).LRUResults v ≤ 1000 * m ∧
        readNat (experiments past 0 (traces.take m) ResultsInit).FIFOResults v ≤ 1000 * m ∧
        readNat (experiments past 0 (traces.take m) ResultsInit).ClockResults v ≤ 1000 * m := by
    intro m v hm hv4 hv20
    obtain ⟨h1, h2, h3⟩ := experiments_totals past (traces.take m) v hv4 hv20
    have hlm : (traces.take m).length = m := by simp [hlen, hm]
    have b1 := totalOf_le (fun i data wss => LRU (past i wss) wss data) v 1000
      (traces.take m) 0 (fun t ht k => hL t (List.mem_of_mem_take ht) k v)
    have b2 := totalOf_le (fun _ data wss => FIFO wss data) v 1000
      (traces.take m) 0 (fun t ht _ => hF t (List.mem_of_mem_take ht) v)
    have b3 := totalOf_le (fun _ data wss => Clock wss data) v 1000
      (traces.take m) 0 (fun t ht _ => hC t (List.mem_of_mem_take ht) v)
    rw [hlm] at b1 b2 b3
    rw [h1, h2, h3]
    exact ⟨b1, b2, b3⟩
  refine ⟨?_, by norm_num, ?_⟩
  · obtain ⟨b1, b2, b3⟩ := hbound n w hn hw4 hw20
    refine ⟨⟨Nat.zero_le _, ?_⟩, ⟨Nat.zero_le _, ?_⟩, ⟨Nat.zero_le _, ?_⟩⟩ <;> omega
  · intro e he
    unfold main report at he
    rw [List.mem_map] at he
    obtain ⟨v, hv, rfl⟩ := he
    obtain ⟨hv4, hv20⟩ := (mem_wssValues v).1 hv
    obtain ⟨b1, b2, b3⟩ := hbound 1000 v (le_refl _) hv4 hv20
    have htake : traces.take 1000 = traces := List.take_of_length_le (by omega)
    rw [htake] at b1 b2 b3
    refine ⟨⟨Nat.zero_le _, ?_⟩, ⟨Nat.zero_le _, ?_⟩, ⟨Nat.zero_le _, ?_⟩⟩
    · exact Nat.div_le_of_le_mul b1
    · exact Nat.div_le_of_le_mul b2
    · exact Nat.div_le_of_le_mul b3

/-- Witness of C19: 1000 traces, each 1000 references to page 7, after one
trial, entry 4. -/
theorem C19_harness_no_overflow_witness :
    readNat (experiments (fun _ _ _ => 0) 0
        ((List.replicate 1000 (List.replicate 1000 (7 : Int))).take 1) ResultsInit).LRUResults 4 ≤
      1000000 :=
  (C19_harness_no_overflow (fun _ _ _ => 0) (List.replicate 1000 (List.replicate 1000 7)) 1 4
    (List.length_replicate _ _)
    (by intro t ht; rw [List.eq_of_mem_replicate ht]; exact List.length_replicate _ _)
    (by decide) (by decide) (by decide)).1.1.2

end MonteCarlo
